import Mathlib

/-!
# Verification of the micromatch limit-order matching engine core

Shallow embedding of the C++ sources of `nickjohnsondls/matchingengine`
(`src/core/orderbook.cpp`, the matching-engine worker, the SPSC queue in
`include/utils/mpmc_queue.hpp` used sequentially, and the arbitrage
detector in `include/network/feed_simulator.hpp`), together with proofs
of the specification's testable properties.

Modelling conventions:
* `uint32_t` / `uint64_t` quantities and counters are `Nat`; the level
  aggregate `total_volume` (a `uint32_t` mutated with `+=` / `-=`) uses
  explicit mod-`2^32` arithmetic (`u32add` / `u32sub`).
* `int64_t` fixed-point prices are `Int` (the book only compares prices,
  never does arithmetic on them).
* Wall-clock reads (`steady_clock::now()`) become explicit parameters;
  `Trade.timestamp_ns` is dropped (pure wall clock, never inspected).
* The `std::shared_ptr<Order>` aliasing between a price level's FIFO
  queue and the `order_map_` index is modelled by updating both
  structures wherever the C++ mutates the shared object.
* `double` arithmetic in `ArbitrageOpportunity::profit_basis_points` is
  modelled with exact rationals (`ℚ`): the claims concern the formula,
  whose operands are 64-bit integers.
-/

namespace Micromatch

/-- `enum class Side` from `core/order.hpp`. -/
inductive Side where
  | buy
  | sell
deriving DecidableEq, Repr

/-- The fields of `struct Order` that the book reads or writes.
`quantity` is the remaining quantity (the matching loop decrements it in
place); `executed_quantity`, `status`, `type`, `tif`, `sequence_number`
and the padding are never consulted by the order-book code and are
omitted. -/
structure Order where
  order_id : Nat
  symbol_id : Nat
  price : Int
  quantity : Nat
  timestamp_ns : Nat
  client_id : Nat
  side : Side
deriving DecidableEq, Repr

/-- `struct Trade` (without its wall-clock timestamp and padding).
Note the C++ constructor binds its second argument to `buy_order_id` and
its third to `sell_order_id`; `generate_trade` passes the aggressive
order second and the passive order third. -/
structure Trade where
  trade_id : Nat
  buy_order_id : Nat
  sell_order_id : Nat
  symbol_id : Nat
  price : Int
  quantity : Nat
deriving DecidableEq, Repr

/-- `OrderBookImpl::generate_trade`: `Trade(next_trade_id_++, aggressive,
passive, price, quantity)`, so the aggressive order's id lands in the
`buy_order_id` field and the passive order's id in `sell_order_id`. -/
def generate_trade (tid : Nat) (aggressive passive : Order)
    (quantity : Nat) (price : Int) : Trade :=
  { trade_id := tid
    buy_order_id := aggressive.order_id
    sell_order_id := passive.order_id
    symbol_id := aggressive.symbol_id
    price := price
    quantity := quantity }

/-- `uint32_t` addition (`total_volume_ += q`). -/
def u32add (a b : Nat) : Nat := (a + b) % 2 ^ 32

/-- `uint32_t` subtraction (`total_volume_ -= q`), wrapping mod `2^32`. -/
def u32sub (a b : Nat) : Nat := (a + 2 ^ 32 - b % 2 ^ 32) % 2 ^ 32

/-- `PriceLevelImpl`: a price, the FIFO queue of orders at that price
(front of the list = front of the queue), and the `uint32_t` volume
aggregate. -/
structure PriceLevelImpl where
  price : Int
  orders : List Order
  total_volume : Nat
deriving DecidableEq, Repr

/-- `PriceLevelImpl::add_order`: push to the tail, `total_volume_ +=
order->quantity`. -/
def PriceLevelImpl.addOrder (l : PriceLevelImpl) (o : Order) : PriceLevelImpl :=
  { l with orders := l.orders ++ [o], total_volume := u32add l.total_volume o.quantity }

/-- The scan of `PriceLevelImpl::remove_order`: every order whose id
matches is dropped and its quantity subtracted from the aggregate. -/
def removeOrderGo (oid : Nat) : List Order → Nat → List Order × Nat
  | [], tv => ([], tv)
  | o :: rest, tv =>
    if o.order_id = oid then
      removeOrderGo oid rest (u32sub tv o.quantity)
    else
      let r := removeOrderGo oid rest tv
      (o :: r.1, r.2)

/-- `PriceLevelImpl::remove_order` (its `found` result is unused by the
caller and dropped). -/
def PriceLevelImpl.removeOrder (l : PriceLevelImpl) (oid : Nat) : PriceLevelImpl :=
  let r := removeOrderGo oid l.orders l.total_volume
  { l with orders := r.1, total_volume := r.2 }

/-- The `order_map_` index (`unordered_map<uint64_t, shared_ptr<Order>>`),
modelled as the list of indexed orders; the key of an entry is the
order's own `order_id`. -/
def mapLookup (m : List Order) (oid : Nat) : Option Order :=
  m.find? (fun o => o.order_id = oid)

/-- `order_map_.erase(oid)`. -/
def mapErase (m : List Order) (oid : Nat) : List Order :=
  m.filter (fun o => o.order_id ≠ oid)

/-- `order_map_[o.order_id] = o` (`operator[]`: overwrite if the key is
present, append otherwise). -/
def mapInsert (m : List Order) (o : Order) : List Order :=
  if m.any (fun x => x.order_id = o.order_id) then
    m.map (fun x => if x.order_id = o.order_id then o else x)
  else
    m ++ [o]

/-- The shared-pointer write `resting->quantity := q`, as seen through
the index. -/
def mapSetQty (m : List Order) (oid : Nat) (q : Nat) : List Order :=
  m.map (fun o => if o.order_id = oid then { o with quantity := q } else o)

/-- `OrderBookImpl`. `buy_levels` is kept sorted by price descending and
`sell_levels` ascending (the two `std::map` comparators); `order_map` is
the id index; `next_trade_id` starts at 1. -/
structure OrderBookImpl where
  symbol_id : Nat
  buy_levels : List PriceLevelImpl
  sell_levels : List PriceLevelImpl
  order_map : List Order
  next_trade_id : Nat
deriving DecidableEq, Repr

/-- The fresh book built by `create_order_book`. -/
def emptyBook (sym : Nat) : OrderBookImpl :=
  { symbol_id := sym, buy_levels := [], sell_levels := [], order_map := [], next_trade_id := 1 }

/-- Result of the matching loop over one price level: the trades emitted,
the aggressor with its remaining quantity, `some` updated level (loop
exited with the level still present) or `none` (level consumed, erased
from the map), the updated index and trade-id counter. -/
structure LevelMatchResult where
  trades : List Trade
  aggressor : Order
  level : Option PriceLevelImpl
  omap : List Order
  tid : Nat

/-- The iterations of `match_buy_order` (resp. `match_sell_order`) that
engage a single best opposite level, translated by recursion on the
level's FIFO queue. Each iteration matches `min` of the two remaining
quantities at the level's price, erases a fully filled resting order
from the index and pops it (`remove_front_after_fill`), or on a partial
fill subtracts the filled quantity from the aggregate
(`update_volume_after_partial_fill`) and updates the shared resting
order; a partial fill always exhausts the aggressor, so the loop exits. -/
def matchOneLevel (aggr : Order) (price : Int) :
    List Order → Nat → List Order → Nat → LevelMatchResult
  | [], _, omap, tid =>
    -- `peek_front()` returned null: the level is erased, the outer loop continues
    ⟨[], aggr, none, omap, tid⟩
  | resting :: rest, tv, omap, tid =>
    if aggr.quantity = 0 then
      ⟨[], aggr, some ⟨price, resting :: rest, tv⟩, omap, tid⟩
    else
      let mq := min aggr.quantity resting.quantity
      let t := generate_trade tid aggr resting mq price
      let aggr' := { aggr with quantity := aggr.quantity - mq }
      if resting.quantity - mq = 0 then
        let r := matchOneLevel aggr' price rest (u32sub tv mq)
          (mapErase omap resting.order_id) (tid + 1)
        ⟨t :: r.trades, r.aggressor, r.level, r.omap, r.tid⟩
      else
        ⟨[t], aggr', some ⟨price, { resting with quantity := resting.quantity - mq } :: rest, u32sub tv mq⟩,
          mapSetQty omap resting.order_id (resting.quantity - mq), tid + 1⟩

/-- Result of a whole matching loop: trades, the aggressor's residual,
the surviving opposite-side levels, the updated index and counter. -/
structure MatchResult where
  trades : List Trade
  aggressor : Order
  levels : List PriceLevelImpl
  omap : List Order
  tid : Nat

/-- `OrderBookImpl::match_buy_order`: walk the ask levels best-first;
stop when the aggressor is exhausted or its (buy) price is below the
best ask. -/
def match_buy_order (aggr : Order) :
    List PriceLevelImpl → List Order → Nat → MatchResult
  | [], omap, tid => ⟨[], aggr, [], omap, tid⟩
  | lvl :: rest, omap, tid =>
    if aggr.quantity = 0 then
      ⟨[], aggr, lvl :: rest, omap, tid⟩
    else if aggr.price < lvl.price then
      -- no cross: break
      ⟨[], aggr, lvl :: rest, omap, tid⟩
    else
      let r := matchOneLevel aggr lvl.price lvl.orders lvl.total_volume omap tid
      match r.level with
      | some l' => ⟨r.trades, r.aggressor, l' :: rest, r.omap, r.tid⟩
      | none =>
        let r2 := match_buy_order r.aggressor rest r.omap r.tid
        ⟨r.trades ++ r2.trades, r2.aggressor, r2.levels, r2.omap, r2.tid⟩

/-- `OrderBookImpl::match_sell_order`: walk the bid levels best-first;
stop when the aggressor is exhausted or its (sell) price is above the
best bid. -/
def match_sell_order (aggr : Order) :
    List PriceLevelImpl → List Order → Nat → MatchResult
  | [], omap, tid => ⟨[], aggr, [], omap, tid⟩
  | lvl :: rest, omap, tid =>
    if aggr.quantity = 0 then
      ⟨[], aggr, lvl :: rest, omap, tid⟩
    else if aggr.price > lvl.price then
      -- no cross: break
      ⟨[], aggr, lvl :: rest, omap, tid⟩
    else
      let r := matchOneLevel aggr lvl.price lvl.orders lvl.total_volume omap tid
      match r.level with
      | some l' => ⟨r.trades, r.aggressor, l' :: rest, r.omap, r.tid⟩
      | none =>
        let r2 := match_sell_order r.aggressor rest r.omap r.tid
        ⟨r.trades ++ r2.trades, r2.aggressor, r2.levels, r2.omap, r2.tid⟩

/-- The `std::map` mutation `levels[price]` followed by
`level->add_order(order)`: append to the level with this price if it
exists, otherwise create the level (`total_volume` starts at 0 and
receives the order's quantity) at its comparator-ordered position.
`before` is the map's comparator (`std::greater` for bids,
`std::less` for asks). -/
def insertLevelBy (before : Int → Int → Bool) (o : Order) :
    List PriceLevelImpl → List PriceLevelImpl
  | [] => [⟨o.price, [o], u32add 0 o.quantity⟩]
  | l :: rest =>
    if l.price = o.price then
      l.addOrder o :: rest
    else if before o.price l.price then
      ⟨o.price, [o], u32add 0 o.quantity⟩ :: l :: rest
    else
      l :: insertLevelBy before o rest

/-- `OrderBookImpl::add_to_book`. -/
def add_to_book (b : OrderBookImpl) (o : Order) : OrderBookImpl :=
  let b' :=
    match o.side with
    | .buy => { b with buy_levels := insertLevelBy (fun a c => a > c) o b.buy_levels }
    | .sell => { b with sell_levels := insertLevelBy (fun a c => a < c) o b.sell_levels }
  { b' with order_map := mapInsert b'.order_map o }

/-- `OrderBookImpl::add_order`: validate (`quantity == 0 || price <= 0`
first, then the duplicate-id check), match against the opposite side,
rest any residual. Returns the new state and the trades. -/
def add_order (b : OrderBookImpl) (o : Order) : OrderBookImpl × List Trade :=
  if o.quantity = 0 ∨ o.price ≤ 0 then
    (b, [])
  else if (mapLookup b.order_map o.order_id).isSome then
    (b, [])
  else
    match o.side with
    | .buy =>
      let r := match_buy_order o b.sell_levels b.order_map b.next_trade_id
      let b' := { b with sell_levels := r.levels, order_map := r.omap, next_trade_id := r.tid }
      if r.aggressor.quantity > 0 then
        (add_to_book b' r.aggressor, r.trades)
      else
        (b', r.trades)
    | .sell =>
      let r := match_sell_order o b.buy_levels b.order_map b.next_trade_id
      let b' := { b with buy_levels := r.levels, order_map := r.omap, next_trade_id := r.tid }
      if r.aggressor.quantity > 0 then
        (add_to_book b' r.aggressor, r.trades)
      else
        (b', r.trades)

/-- The level-map side of `cancel_order`: find the (first) level with the
order's price, run `remove_order`, erase the level if now empty. -/
def removeFromLevels (oid : Nat) (p : Int) :
    List PriceLevelImpl → List PriceLevelImpl
  | [] => []
  | l :: rest =>
    if l.price = p then
      let l' := l.removeOrder oid
      if l'.orders.isEmpty then rest else l' :: rest
    else
      l :: removeFromLevels oid p rest

/-- `OrderBookImpl::cancel_order`. -/
def cancel_order (b : OrderBookImpl) (oid : Nat) : OrderBookImpl × Bool :=
  match mapLookup b.order_map oid with
  | none => (b, false)
  | some o =>
    let omap' := mapErase b.order_map oid
    match o.side with
    | .buy =>
      ({ b with order_map := omap', buy_levels := removeFromLevels oid o.price b.buy_levels }, true)
    | .sell =>
      ({ b with order_map := omap', sell_levels := removeFromLevels oid o.price b.sell_levels }, true)

/-- `OrderBookImpl::modify_order`: look up, cancel, re-add a copy with
the new price/quantity and a refreshed timestamp (`now` stands for the
`steady_clock::now()` read), returning the new order; the trades of the
inner `add_order` are discarded. -/
def modify_order (b : OrderBookImpl) (oid : Nat) (newPrice : Int)
    (newQuantity : Nat) (now : Nat) : OrderBookImpl × Option Order :=
  match mapLookup b.order_map oid with
  | none => (b, none)
  | some oldOrder =>
    let c := cancel_order b oid
    if c.2 then
      let newOrder := { oldOrder with price := newPrice, quantity := newQuantity, timestamp_ns := now }
      ((add_order c.1 newOrder).1, some newOrder)
    else
      (c.1, none)

/-- `OrderBookImpl::best_bid`. -/
def best_bid (b : OrderBookImpl) : Option Int :=
  b.buy_levels.head?.map (fun l => l.price)

/-- `OrderBookImpl::best_ask`. -/
def best_ask (b : OrderBookImpl) : Option Int :=
  b.sell_levels.head?.map (fun l => l.price)

/-! ## Matching engine worker (`MatchingEngineImpl`) -/

/-- The counters of `MatchingEngineStats` (atomics with relaxed ordering,
read and written only by the single worker in the modelled paths). -/
structure MatchingEngineStats where
  total_orders : Nat
  total_trades : Nat
  total_volume : Nat
  rejected_orders : Nat
  cancelled_orders : Nat
  modified_orders : Nat
deriving DecidableEq, Repr

/-- The `order_books_` registry (`unordered_map<uint64_t,
unique_ptr<IOrderBook>>`), as an association list. -/
abbrev Books := List (Nat × OrderBookImpl)

/-- `order_books_.find(symbol_id)`. -/
def booksLookup (books : Books) (sym : Nat) : Option OrderBookImpl :=
  (List.find? (fun e => e.1 = sym) books).map (fun e => e.2)

/-- In-place mutation of the registry entry for `sym`. -/
def booksUpdate (books : Books) (sym : Nat) (b : OrderBookImpl) : Books :=
  List.map (fun e => if e.1 = sym then (e.1, b) else e) books

/-- A synchronous callback invocation made by the worker:
`order_callback_(order, accepted)` or `trade_callback_(trade)`, in
invocation order. -/
inductive EngineEvent where
  | orderAck (o : Order) (accepted : Bool)
  | tradeFill (t : Trade)
deriving DecidableEq, Repr

/-- Sum of the `trade.quantity` values added to `total_volume`. -/
def sumQty (ts : List Trade) : Nat :=
  ts.foldr (fun t acc => t.quantity + acc) 0

/-- `MatchingEngineImpl::process_new_order`: bump `total_orders`, look
the symbol up (absent: bump `rejected_orders`, fire
`order_callback(order, false)`), otherwise `add_order`, fire
`order_callback(order, true)`, then per trade bump `total_trades` /
`total_volume` and fire `trade_callback(trade)`. Returns the registry,
the counters and the callback invocations in order. -/
def process_new_order (books : Books) (stats : MatchingEngineStats) (o : Order) :
    Books × MatchingEngineStats × List EngineEvent :=
  let stats1 := { stats with total_orders := stats.total_orders + 1 }
  match booksLookup books o.symbol_id with
  | none =>
    (books, { stats1 with rejected_orders := stats1.rejected_orders + 1 },
      [.orderAck o false])
  | some b =>
    let r := add_order b o
    (booksUpdate books o.symbol_id r.1,
      { stats1 with
          total_trades := stats1.total_trades + r.2.length
          total_volume := stats1.total_volume + sumQty r.2 },
      .orderAck o true :: r.2.map .tradeFill)

/-- `MatchingEngineImpl::process_cancel_order`. -/
def process_cancel_order (books : Books) (stats : MatchingEngineStats)
    (sym oid : Nat) : Books × MatchingEngineStats :=
  match booksLookup books sym with
  | none => (books, stats)
  | some b =>
    let r := cancel_order b oid
    (booksUpdate books sym r.1,
      if r.2 then { stats with cancelled_orders := stats.cancelled_orders + 1 } else stats)

/-- `MatchingEngineImpl::process_modify_order`: a modification that
returns a value counts as successful (`modified_orders++`). -/
def process_modify_order (books : Books) (stats : MatchingEngineStats)
    (sym oid : Nat) (newPrice : Int) (newQuantity : Nat) (now : Nat) :
    Books × MatchingEngineStats :=
  match booksLookup books sym with
  | none => (books, stats)
  | some b =>
    let r := modify_order b oid newPrice newQuantity now
    (booksUpdate books sym r.1,
      match r.2 with
      | some _ => { stats with modified_orders := stats.modified_orders + 1 }
      | none => stats)

/-! ## SPSC queue (`utils::SPSCQueue`), sequential semantics

The queue is a singly-linked list with a dummy head; under the claimed
one-producer/one-consumer sequential use, the observable state is the
chain of pending items between the consumed dummy and the tail. -/

/-- The pending chain of `SPSCQueue` (front of the list = node after the
dummy head = next to be dequeued). -/
structure SPSCQueue (α : Type) where
  pending : List α
deriving DecidableEq, Repr

/-- `SPSCQueue::enqueue`: link a fresh node holding the value at the
tail; always returns `true`. -/
def SPSCQueue.enqueue {α} (q : SPSCQueue α) (v : α) : SPSCQueue α × Bool :=
  ({ pending := q.pending ++ [v] }, true)

/-- `SPSCQueue::dequeue`: take the node after the head, or `none` when
the chain is empty. -/
def SPSCQueue.dequeue {α} (q : SPSCQueue α) : SPSCQueue α × Option α :=
  match q.pending with
  | [] => (q, none)
  | v :: rest => ({ pending := rest }, some v)

/-- A sequential history of operations against an `SPSCQueue`. -/
inductive SpscOp (α : Type) where
  | enq (v : α)
  | deq
deriving DecidableEq, Repr

/-- Run a history; returns the final queue, the values enqueued (in
enqueue order) and the values returned by `dequeue` calls (in call
order). -/
def runSpsc {α} : List (SpscOp α) → SPSCQueue α → SPSCQueue α × List α × List α
  | [], q => (q, [], [])
  | .enq v :: ops, q =>
    let step := q.enqueue v
    let r := runSpsc ops step.1
    (r.1, v :: r.2.1, r.2.2)
  | .deq :: ops, q =>
    let step := q.dequeue
    let r := runSpsc ops step.1
    (r.1, r.2.1, step.2.toList ++ r.2.2)

/-! ## Arbitrage detector (`network::ArbitrageDetector`) -/

/-- The price fields of `struct Quote` that the detector reads, plus the
timestamp it compares (sizes and sequence numbers are never consulted by
the detector). -/
structure Quote where
  symbol_id : Nat
  bid_price : Int
  ask_price : Int
  timestamp_ns : Nat
deriving DecidableEq, Repr

/-- `struct ArbitrageOpportunity` (its own wall-clock `timestamp_ns` is
dropped). -/
structure ArbitrageOpportunity where
  symbol_id : Nat
  fast_feed : Char
  slow_feed : Char
  price_difference : Int
  latency_difference_ns : Nat
  feed_a_bid : Int
  feed_a_ask : Int
  feed_b_bid : Int
  feed_b_ask : Int
deriving DecidableEq, Repr

/-- `ArbitrageOpportunity::profit_basis_points`, with the C++ `double`
arithmetic carried out in exact rationals. -/
def ArbitrageOpportunity.profit_basis_points (o : ArbitrageOpportunity) : ℚ :=
  if o.feed_a_ask > 0 ∧ o.feed_b_bid > 0 ∧ o.feed_b_bid > o.feed_a_ask then
    ((o.feed_b_bid : ℚ) - (o.feed_a_ask : ℚ)) / (o.feed_a_ask : ℚ) * 10000
  else if o.feed_b_ask > 0 ∧ o.feed_a_bid > 0 ∧ o.feed_a_bid > o.feed_b_ask then
    ((o.feed_a_bid : ℚ) - (o.feed_b_ask : ℚ)) / (o.feed_b_ask : ℚ) * 10000
  else
    0

/-- `ArbitrageOpportunity::is_profitable`. -/
def ArbitrageOpportunity.is_profitable (o : ArbitrageOpportunity) : Prop :=
  o.profit_basis_points > 0

instance (o : ArbitrageOpportunity) : Decidable o.is_profitable := by
  unfold ArbitrageOpportunity.is_profitable; infer_instance

/-- `ArbitrageDetector::SymbolState` restricted to one symbol's two
latest quotes (the `has_feed_a && has_feed_b` guard of `process_quote`
has already passed when `check_arbitrage` runs). -/
structure SymbolState where
  feed_a_quote : Quote
  feed_b_quote : Quote
deriving DecidableEq, Repr

/-- `ArbitrageDetector::check_arbitrage`: build and record an
opportunity when the two feeds' books cross in either direction or any
same-side prices differ; `none` when nothing is recorded. -/
def check_arbitrage (sym : Nat) (state : SymbolState) : Option ArbitrageOpportunity :=
  let has_opportunity :=
    (state.feed_a_quote.ask_price > 0 ∧ state.feed_b_quote.bid_price > 0 ∧
      state.feed_b_quote.bid_price > state.feed_a_quote.ask_price) ∨
    (state.feed_b_quote.ask_price > 0 ∧ state.feed_a_quote.bid_price > 0 ∧
      state.feed_a_quote.bid_price > state.feed_b_quote.ask_price)
  let bid_diff := |state.feed_a_quote.bid_price - state.feed_b_quote.bid_price|
  let ask_diff := |state.feed_a_quote.ask_price - state.feed_b_quote.ask_price|
  if bid_diff > 0 ∨ ask_diff > 0 ∨ has_opportunity then
    some
      { symbol_id := sym
        fast_feed :=
          if state.feed_a_quote.timestamp_ns < state.feed_b_quote.timestamp_ns then 'A' else 'B'
        slow_feed :=
          if state.feed_a_quote.timestamp_ns < state.feed_b_quote.timestamp_ns then 'B' else 'A'
        price_difference := max bid_diff ask_diff
        latency_difference_ns :=
          if state.feed_a_quote.timestamp_ns < state.feed_b_quote.timestamp_ns then
            state.feed_b_quote.timestamp_ns - state.feed_a_quote.timestamp_ns
          else
            state.feed_a_quote.timestamp_ns - state.feed_b_quote.timestamp_ns
        feed_a_bid := state.feed_a_quote.bid_price
        feed_a_ask := state.feed_a_quote.ask_price
        feed_b_bid := state.feed_b_quote.bid_price
        feed_b_ask := state.feed_b_quote.ask_price }
  else
    none

/-! ## Basic lemmas about `add_order`, `cancel_order`, `modify_order` -/

/-- `add_order` on an order with zero quantity, non-positive price, or a
duplicate id returns no trades and the unchanged book. -/
theorem add_order_invalid (b : OrderBookImpl) (o : Order)
    (h : o.quantity = 0 ∨ o.price ≤ 0 ∨ (mapLookup b.order_map o.order_id).isSome) :
    add_order b o = (b, []) := by
  by_cases h1 : o.quantity = 0 ∨ o.price ≤ 0
  · simp [add_order, h1]
  · rcases h with h | h | h
    · exact absurd (Or.inl h) h1
    · exact absurd (Or.inr h) h1
    · simp [add_order, h1, h]

/-- `cancel_order` reports success exactly when the id resolves in the
index. -/
theorem cancel_order_snd_eq (b : OrderBookImpl) (oid : Nat) :
    (cancel_order b oid).2 = (mapLookup b.order_map oid).isSome := by
  unfold cancel_order
  cases h : mapLookup b.order_map oid with
  | none => rfl
  | some o =>
    obtain ⟨oi, sy, pr, qu, ts, ci, sd⟩ := o
    cases sd <;> rfl

/-- `cancel_order` on an absent id is a no-op. -/
theorem cancel_order_absent (b : OrderBookImpl) (oid : Nat)
    (h : mapLookup b.order_map oid = none) :
    cancel_order b oid = (b, false) := by
  unfold cancel_order
  rw [h]

/-- Unfolding of `modify_order` on a present id: cancel, then re-add the
modified copy. -/
theorem modify_order_present (b : OrderBookImpl) (oid : Nat) (np : Int)
    (nq now : Nat) (o : Order) (h : mapLookup b.order_map oid = some o) :
    modify_order b oid np nq now =
      ((add_order (cancel_order b oid).1
          { o with price := np, quantity := nq, timestamp_ns := now }).1,
        some { o with price := np, quantity := nq, timestamp_ns := now }) := by
  unfold modify_order
  rw [h]
  have hc : (cancel_order b oid).2 = true := by
    rw [cancel_order_snd_eq, h]
    rfl
  simp [hc]

/-- `modify_order` on an absent id returns `none` and changes nothing. -/
theorem modify_order_absent (b : OrderBookImpl) (oid : Nat) (np : Int)
    (nq now : Nat) (h : mapLookup b.order_map oid = none) :
    modify_order b oid np nq now = (b, none) := by
  unfold modify_order
  rw [h]

/-! ## Shared concrete fixtures for witnesses and counterexamples -/

/-- A resting buy order used by concrete witnesses. -/
def wOrder1 : Order :=
  { order_id := 1, symbol_id := 7, price := 100, quantity := 10,
    timestamp_ns := 5, client_id := 3, side := .buy }

/-- A one-order book used by concrete witnesses. -/
def wBook1 : OrderBookImpl :=
  { symbol_id := 7
    buy_levels := [⟨100, [wOrder1], 10⟩]
    sell_levels := []
    order_map := [wOrder1]
    next_trade_id := 1 }

/-! ## C3 -/

/-- C3: for every book state and every order whose quantity is 0, whose
price is ≤ 0, or whose id already resolves to a resting order,
`add_order` returns an empty trade list and the book state is unchanged
(no level, index, or trade-id mutation). -/
theorem C3_invalid_or_duplicate_add_is_noop (b : OrderBookImpl) (o : Order)
    (h : o.quantity = 0 ∨ o.price ≤ 0 ∨ (mapLookup b.order_map o.order_id).isSome) :
    add_order b o = (b, []) :=
  add_order_invalid b o h

/-- Concrete instantiation of C3: a zero-quantity order, a non-positive
price, and a duplicate id against `wBook1` are all silently rejected. -/
theorem C3_witness :
    add_order wBook1 { wOrder1 with order_id := 9, quantity := 0 } = (wBook1, []) ∧
    add_order wBook1 { wOrder1 with order_id := 9, price := -3 } = (wBook1, []) ∧
    add_order wBook1 { wOrder1 with quantity := 4 } = (wBook1, []) :=
  ⟨C3_invalid_or_duplicate_add_is_noop wBook1 _ (Or.inl rfl),
   C3_invalid_or_duplicate_add_is_noop wBook1 _ (Or.inr (Or.inl (by decide))),
   C3_invalid_or_duplicate_add_is_noop wBook1 _ (Or.inr (Or.inr (by decide)))⟩

/-! ## C4 -/

/-- C4: on a present id, `modify_order(order_id, new_price,
new_quantity)` leaves the book in exactly the state of
`cancel_order(order_id)` followed by `add_order` of an order with the
same identity fields but the new price, the new quantity and a refreshed
submission timestamp, and returns that new order; on an absent id it
returns `none` and changes nothing. -/
theorem C4_modify_is_cancel_then_add (b : OrderBookImpl) (oid : Nat)
    (np : Int) (nq now : Nat) :
    (∀ o, mapLookup b.order_map oid = some o →
      modify_order b oid np nq now =
        ((add_order (cancel_order b oid).1
            { o with price := np, quantity := nq, timestamp_ns := now }).1,
          some { o with price := np, quantity := nq, timestamp_ns := now })) ∧
    (mapLookup b.order_map oid = none →
      modify_order b oid np nq now = (b, none)) :=
  ⟨fun o h => modify_order_present b oid np nq now o h,
   fun h => modify_order_absent b oid np nq now h⟩

/-- Concrete instantiation of C4 on `wBook1`: modifying the resting
order, and modifying an absent id. -/
theorem C4_witness :
    modify_order wBook1 1 101 5 99 =
      ((add_order (cancel_order wBook1 1).1
          { wOrder1 with price := 101, quantity := 5, timestamp_ns := 99 }).1,
        some { wOrder1 with price := 101, quantity := 5, timestamp_ns := 99 }) ∧
    modify_order wBook1 2 101 5 99 = (wBook1, none) :=
  ⟨(C4_modify_is_cancel_then_add wBook1 1 101 5 99).1 wOrder1 (by decide),
   (C4_modify_is_cancel_then_add wBook1 2 101 5 99).2 (by decide)⟩

/-! ## C10 -/

/-- C10: the worker increments `total_orders` for every dequeued
`NewOrder` request, including those rejected for an unregistered symbol
(which additionally increment `rejected_orders` and change no book);
submissions to a registered symbol never touch `rejected_orders`. -/
theorem C10_total_orders_counts_every_submission (books : Books)
    (stats : MatchingEngineStats) (o : Order) :
    ((process_new_order books stats o).2.1.total_orders = stats.total_orders + 1) ∧
    (booksLookup books o.symbol_id = none →
      (process_new_order books stats o).2.1.rejected_orders = stats.rejected_orders + 1 ∧
      (process_new_order books stats o).1 = books) ∧
    (∀ b, booksLookup books o.symbol_id = some b →
      (process_new_order books stats o).2.1.rejected_orders = stats.rejected_orders) := by
  unfold process_new_order
  cases h : booksLookup books o.symbol_id with
  | none => exact ⟨rfl, fun _ => ⟨rfl, rfl⟩, fun b hb => by cases hb⟩
  | some b =>
    refine ⟨rfl, fun hn => ?_, fun b' _ => rfl⟩
    cases hn

/-- A stats record with all counters zero, for concrete witnesses. -/
def wStats0 : MatchingEngineStats :=
  { total_orders := 0, total_trades := 0, total_volume := 0,
    rejected_orders := 0, cancelled_orders := 0, modified_orders := 0 }

/-- Concrete instantiation of C10: a submission to an empty registry is
counted in `total_orders` and `rejected_orders`; one to a registered
symbol only in `total_orders`. -/
theorem C10_witness :
    ((process_new_order [] wStats0 wOrder1).2.1.total_orders = 1 ∧
      (process_new_order [] wStats0 wOrder1).2.1.rejected_orders = 1 ∧
      (process_new_order [] wStats0 wOrder1).1 = []) ∧
    ((process_new_order [(7, wBook1)] wStats0
        { wOrder1 with order_id := 2 }).2.1.total_orders = 1 ∧
      (process_new_order [(7, wBook1)] wStats0
        { wOrder1 with order_id := 2 }).2.1.rejected_orders = 0) := by
  refine ⟨⟨?_, ?_, ?_⟩, ?_, ?_⟩
  · exact (C10_total_orders_counts_every_submission [] wStats0 wOrder1).1
  · exact ((C10_total_orders_counts_every_submission [] wStats0 wOrder1).2.1 (by decide)).1
  · exact ((C10_total_orders_counts_every_submission [] wStats0 wOrder1).2.1 (by decide)).2
  · exact (C10_total_orders_counts_every_submission [(7, wBook1)] wStats0
      { wOrder1 with order_id := 2 }).1
  · exact (C10_total_orders_counts_every_submission [(7, wBook1)] wStats0
      { wOrder1 with order_id := 2 }).2.2 wBook1 (by decide)

/-! ## C7 -/

/-- The branch analysis of `profit_basis_points`: the buy-on-A formula
when `B.bid` crosses `A.ask`, the buy-on-B formula when `A.bid` crosses
`B.ask` (and the first branch did not fire), and zero otherwise. -/
theorem profit_bps_branches (o : ArbitrageOpportunity) :
    ((o.feed_a_ask > 0 ∧ o.feed_b_bid > 0 ∧ o.feed_b_bid > o.feed_a_ask) →
      o.profit_basis_points =
        ((o.feed_b_bid : ℚ) - (o.feed_a_ask : ℚ)) / (o.feed_a_ask : ℚ) * 10000) ∧
    (¬(o.feed_a_ask > 0 ∧ o.feed_b_bid > 0 ∧ o.feed_b_bid > o.feed_a_ask) →
      (o.feed_b_ask > 0 ∧ o.feed_a_bid > 0 ∧ o.feed_a_bid > o.feed_b_ask) →
      o.profit_basis_points =
        ((o.feed_a_bid : ℚ) - (o.feed_b_ask : ℚ)) / (o.feed_b_ask : ℚ) * 10000) ∧
    (¬(o.feed_a_ask > 0 ∧ o.feed_b_bid > 0 ∧ o.feed_b_bid > o.feed_a_ask) →
      ¬(o.feed_b_ask > 0 ∧ o.feed_a_bid > 0 ∧ o.feed_a_bid > o.feed_b_ask) →
      o.profit_basis_points = 0) := by
  unfold ArbitrageOpportunity.profit_basis_points
  exact ⟨fun h => by simp [h],
    fun h1 h2 => by simp [h1, h2],
    fun h1 h2 => by simp [h1, h2]⟩

/-- `is_profitable` holds exactly when the two-feed book is crossed in
one of the two directions. -/
theorem is_profitable_iff_crossed (o : ArbitrageOpportunity) :
    o.is_profitable ↔
      ((o.feed_a_ask > 0 ∧ o.feed_b_bid > 0 ∧ o.feed_b_bid > o.feed_a_ask) ∨
        (o.feed_b_ask > 0 ∧ o.feed_a_bid > 0 ∧ o.feed_a_bid > o.feed_b_ask)) := by
  unfold ArbitrageOpportunity.is_profitable
  by_cases h1 : o.feed_a_ask > 0 ∧ o.feed_b_bid > 0 ∧ o.feed_b_bid > o.feed_a_ask
  · have hq : o.profit_basis_points =
        ((o.feed_b_bid : ℚ) - (o.feed_a_ask : ℚ)) / (o.feed_a_ask : ℚ) * 10000 :=
      (profit_bps_branches o).1 h1
    have ha : (0 : ℚ) < (o.feed_a_ask : ℚ) := by exact_mod_cast h1.1
    have hlt : (o.feed_a_ask : ℚ) < (o.feed_b_bid : ℚ) := by exact_mod_cast h1.2.2
    have : (0 : ℚ) < o.profit_basis_points := by
      rw [hq]
      have hnum : (0 : ℚ) < (o.feed_b_bid : ℚ) - (o.feed_a_ask : ℚ) := by linarith
      have := div_pos hnum ha
      nlinarith
    constructor
    · intro _
      exact Or.inl h1
    · intro _
      exact this
  · by_cases h2 : o.feed_b_ask > 0 ∧ o.feed_a_bid > 0 ∧ o.feed_a_bid > o.feed_b_ask
    · have hq : o.profit_basis_points =
          ((o.feed_a_bid : ℚ) - (o.feed_b_ask : ℚ)) / (o.feed_b_ask : ℚ) * 10000 :=
        (profit_bps_branches o).2.1 h1 h2
      have hb : (0 : ℚ) < (o.feed_b_ask : ℚ) := by exact_mod_cast h2.1
      have hlt : (o.feed_b_ask : ℚ) < (o.feed_a_bid : ℚ) := by exact_mod_cast h2.2.2
      have : (0 : ℚ) < o.profit_basis_points := by
        rw [hq]
        have hnum : (0 : ℚ) < (o.feed_a_bid : ℚ) - (o.feed_b_ask : ℚ) := by linarith
        have := div_pos hnum hb
        nlinarith
      constructor
      · intro _
        exact Or.inr h2
      · intro _
        exact this
    · have hq : o.profit_basis_points = 0 := (profit_bps_branches o).2.2 h1 h2
      rw [hq]
      constructor
      · intro h
        exact absurd h (lt_irrefl 0)
      · intro h
        rcases h with h | h
        · exact absurd h h1
        · exact absurd h h2

/-- `check_arbitrage` copies the two feeds' latest quote prices into the
recorded opportunity verbatim. -/
theorem check_arbitrage_fields (sym : Nat) (st : SymbolState)
    (opp : ArbitrageOpportunity) (h : check_arbitrage sym st = some opp) :
    opp.feed_a_bid = st.feed_a_quote.bid_price ∧
    opp.feed_a_ask = st.feed_a_quote.ask_price ∧
    opp.feed_b_bid = st.feed_b_quote.bid_price ∧
    opp.feed_b_ask = st.feed_b_quote.ask_price := by
  unfold check_arbitrage at h
  dsimp only at h
  split at h
  · cases h
    exact ⟨rfl, rfl, rfl, rfl⟩
  · cases h

/-- C7: every opportunity recorded by `check_arbitrage` carries the two
feeds' quote prices; its `profit_basis_points` equals
`((P_sell − P_buy) / P_buy) · 10000` with `P_buy` the crossed ask and
`P_sell` the crossed bid when one feed's bid strictly exceeds the other
feed's ask (both positive), and equals 0 otherwise; and
`is_profitable` holds iff the two-feed book is crossed — in particular a
disparity-only opportunity has profit 0. -/
theorem C7_profit_basis_points_formula (sym : Nat) (st : SymbolState)
    (opp : ArbitrageOpportunity) (h : check_arbitrage sym st = some opp) :
    (opp.feed_a_bid = st.feed_a_quote.bid_price ∧
      opp.feed_a_ask = st.feed_a_quote.ask_price ∧
      opp.feed_b_bid = st.feed_b_quote.bid_price ∧
      opp.feed_b_ask = st.feed_b_quote.ask_price) ∧
    ((opp.feed_a_ask > 0 ∧ opp.feed_b_bid > 0 ∧ opp.feed_b_bid > opp.feed_a_ask) →
      opp.profit_basis_points =
        ((opp.feed_b_bid : ℚ) - (opp.feed_a_ask : ℚ)) / (opp.feed_a_ask : ℚ) * 10000) ∧
    (¬(opp.feed_a_ask > 0 ∧ opp.feed_b_bid > 0 ∧ opp.feed_b_bid > opp.feed_a_ask) →
      (opp.feed_b_ask > 0 ∧ opp.feed_a_bid > 0 ∧ opp.feed_a_bid > opp.feed_b_ask) →
      opp.profit_basis_points =
        ((opp.feed_a_bid : ℚ) - (opp.feed_b_ask : ℚ)) / (opp.feed_b_ask : ℚ) * 10000) ∧
    (¬(opp.feed_a_ask > 0 ∧ opp.feed_b_bid > 0 ∧ opp.feed_b_bid > opp.feed_a_ask) →
      ¬(opp.feed_b_ask > 0 ∧ opp.feed_a_bid > 0 ∧ opp.feed_a_bid > opp.feed_b_ask) →
      opp.profit_basis_points = 0) ∧
    (opp.is_profitable ↔
      ((opp.feed_a_ask > 0 ∧ opp.feed_b_bid > 0 ∧ opp.feed_b_bid > opp.feed_a_ask) ∨
        (opp.feed_b_ask > 0 ∧ opp.feed_a_bid > 0 ∧ opp.feed_a_bid > opp.feed_b_ask))) :=
  ⟨check_arbitrage_fields sym st opp h,
   (profit_bps_branches opp).1,
   (profit_bps_branches opp).2.1,
   (profit_bps_branches opp).2.2,
   is_profitable_iff_crossed opp⟩

/-- Feed A quote of the spec's crossed-book scenario. -/
def wQuoteA : Quote := { symbol_id := 1, bid_price := 10000, ask_price := 10010, timestamp_ns := 1 }

/-- Feed B quote of the spec's crossed-book scenario. -/
def wQuoteB : Quote := { symbol_id := 1, bid_price := 10020, ask_price := 10030, timestamp_ns := 2 }

/-- The two-feed state of the spec's crossed-book scenario. -/
def wStC7 : SymbolState := { feed_a_quote := wQuoteA, feed_b_quote := wQuoteB }

/-- The opportunity `check_arbitrage` records for `wStC7`. -/
def wOppC7 : ArbitrageOpportunity :=
  { symbol_id := 1, fast_feed := 'A', slow_feed := 'B', price_difference := 20,
    latency_difference_ns := 1, feed_a_bid := 10000, feed_a_ask := 10010,
    feed_b_bid := 10020, feed_b_ask := 10030 }

/-- Concrete instantiation of C7: the crossed scenario `A=(10000,10010)`,
`B=(10020,10030)` yields the buy-on-A formula and a profitable flag. -/
theorem C7_witness :
    wOppC7.profit_basis_points =
      ((10020 : ℚ) - 10010) / 10010 * 10000 ∧ wOppC7.is_profitable := by
  have hmain := C7_profit_basis_points_formula 1 wStC7 wOppC7 (by decide)
  exact ⟨hmain.2.1 (by decide), hmain.2.2.2.2.mpr (Or.inl (by decide))⟩

/-! ## C8 -/

/-- Conservation law of a sequential SPSC run: the values dequeued so
far followed by the still-pending chain are exactly the initial chain
followed by the values enqueued. -/
theorem runSpsc_conservation {α : Type} (ops : List (SpscOp α)) (q : SPSCQueue α) :
    (runSpsc ops q).2.2 ++ (runSpsc ops q).1.pending =
      q.pending ++ (runSpsc ops q).2.1 := by
  induction ops generalizing q with
  | nil => simp [runSpsc]
  | cons op ops ih =>
    cases op with
    | enq v =>
      have h := ih { pending := q.pending ++ [v] }
      simp only [runSpsc, SPSCQueue.enqueue] at h ⊢
      rw [h]
      simp
    | deq =>
      cases hq : q.pending with
      | nil =>
        have h := ih q
        simpa [runSpsc, SPSCQueue.dequeue, hq] using h
      | cons v rest =>
        have h := ih { pending := rest }
        simp only [runSpsc, SPSCQueue.dequeue, hq] at h ⊢
        simp [List.append_assoc] at h ⊢
        rw [h]

/-- C8: for the SPSC queue used sequentially, `enqueue` always succeeds;
over any history started on the empty queue the dequeued values form a
prefix of the enqueued values in enqueue order (the missing part being
exactly the pending chain); and `dequeue` returns `none` exactly when no
enqueued value remains undelivered. -/
theorem C8_spsc_dequeues_are_prefix_of_enqueues (α : Type) :
    (∀ (q : SPSCQueue α) (v : α), (q.enqueue v).2 = true) ∧
    (∀ ops : List (SpscOp α),
      (runSpsc ops ⟨[]⟩).2.2 ++ (runSpsc ops ⟨[]⟩).1.pending = (runSpsc ops ⟨[]⟩).2.1 ∧
      ∃ rest, (runSpsc ops ⟨[]⟩).2.2 ++ rest = (runSpsc ops ⟨[]⟩).2.1) ∧
    (∀ q : SPSCQueue α, (q.dequeue).2 = none ↔ q.pending = []) := by
  refine ⟨fun q v => rfl, fun ops => ?_, fun q => ?_⟩
  · have h := runSpsc_conservation ops (⟨[]⟩ : SPSCQueue α)
    simp only [List.nil_append] at h
    exact ⟨h, ⟨(runSpsc ops ⟨[]⟩).1.pending, h⟩⟩
  · cases hq : q.pending with
    | nil => simp [SPSCQueue.dequeue, hq]
    | cons v rest => simp [SPSCQueue.dequeue, hq]

/-! ## C6 -/

/-- Recognizer for order-callback invocations. -/
def isOrderAck : EngineEvent → Bool
  | .orderAck _ _ => true
  | .tradeFill _ => false

/-- C6: each processed new order fires `order_callback` exactly once;
the event stream is that single acknowledgement followed by one
`trade_callback` per generated trade (so every trade callback comes
after the aggressor's `accepted = true` acknowledgement, and
`accepted = false` happens only for an unregistered symbol); a locally
invalid order on a registered symbol surfaces only through the
trade-free, counter-preserving accepted acknowledgement — no error
escapes the worker. -/
theorem C6_order_callback_once_then_trades (books : Books)
    (stats : MatchingEngineStats) (o : Order)
    (res : Books × MatchingEngineStats × List EngineEvent)
    (h : process_new_order books stats o = res) :
    (res.2.2.countP isOrderAck = 1) ∧
    (∃ acc ts, res.2.2 = .orderAck o acc :: ts.map .tradeFill ∧
      (acc = false → ts = [] ∧ booksLookup books o.symbol_id = none) ∧
      (acc = true → ∃ b, booksLookup books o.symbol_id = some b ∧ (add_order b o).2 = ts)) ∧
    (∀ b, booksLookup books o.symbol_id = some b →
      (o.quantity = 0 ∨ o.price ≤ 0 ∨ (mapLookup b.order_map o.order_id).isSome) →
      res.2.2 = [.orderAck o true] ∧
      res.2.1.total_trades = stats.total_trades ∧
      res.2.1.total_volume = stats.total_volume) := by
  subst h
  unfold process_new_order
  cases hl : booksLookup books o.symbol_id with
  | none =>
    refine ⟨rfl, ⟨false, [], rfl, ?_, ?_⟩, fun b hb => ?_⟩
    · intro _
      exact ⟨rfl, rfl⟩
    · intro hacc
      cases hacc
    · cases hb
  | some b =>
    refine ⟨?_, ⟨true, (add_order b o).2, rfl, ?_, ?_⟩, fun b' hb' hinv => ?_⟩
    · simp [List.countP_cons, isOrderAck, List.countP_map, Function.comp_def]
    · intro hacc
      cases hacc
    · intro _
      exact ⟨b, rfl, rfl⟩
    · cases hb'
      have hadd := add_order_invalid b o hinv
      simp [hadd, sumQty]

/-- Concrete instantiation of C6 on `wBook1`: a duplicate-id submission
to the registered symbol produces exactly one accepted acknowledgement,
no trade callbacks, and unchanged trade counters. -/
theorem C6_witness :
    ((process_new_order [(7, wBook1)] wStats0 { wOrder1 with quantity := 4 }).2.2 =
      [.orderAck { wOrder1 with quantity := 4 } true]) ∧
    (process_new_order [(7, wBook1)] wStats0
      { wOrder1 with quantity := 4 }).2.1.total_trades = 0 ∧
    (process_new_order [(7, wBook1)] wStats0
      { wOrder1 with quantity := 4 }).2.1.total_volume = 0 := by
  have hmain := C6_order_callback_once_then_trades [(7, wBook1)] wStats0
    { wOrder1 with quantity := 4 } _ rfl
  exact hmain.2.2 wBook1 (by decide) (Or.inr (Or.inr (by decide)))

/-! ## C9 -/

/-- No order with the given id occurs in any level of the list. -/
def levelsNoId (ls : List PriceLevelImpl) (oid : Nat) : Prop :=
  ∀ lvl ∈ ls, ∀ x ∈ lvl.orders, x.order_id ≠ oid

instance (ls : List PriceLevelImpl) (oid : Nat) : Decidable (levelsNoId ls oid) := by
  unfold levelsNoId
  infer_instance

/-- The `remove_order` scan keeps no order with the removed id. -/
theorem removeOrderGo_fst_no_id (oid : Nat) (os : List Order) :
    ∀ tv, ∀ x ∈ (removeOrderGo oid os tv).1, x.order_id ≠ oid := by
  induction os with
  | nil =>
    intro tv x hx
    simp [removeOrderGo] at hx
  | cons o rest ih =>
    intro tv x hx
    by_cases ho : o.order_id = oid
    · simp only [removeOrderGo, if_pos ho] at hx
      exact ih _ x hx
    · simp only [removeOrderGo, if_neg ho] at hx
      rcases List.mem_cons.mp hx with h | h
      · subst h
        exact ho
      · exact ih _ x h

/-- After `cancel_order`'s level removal, the id is gone from every
level, provided it occurred only in levels at the cancelled order's
price and the side's level prices are distinct (as `std::map` keys
are). -/
theorem removeFromLevels_no_id (oid : Nat) (p : Int) (ls : List PriceLevelImpl)
    (hconf : ∀ lvl ∈ ls, lvl.price ≠ p → ∀ x ∈ lvl.orders, x.order_id ≠ oid)
    (hdis : (ls.map (fun l => l.price)).Pairwise (fun a c => a ≠ c)) :
    levelsNoId (removeFromLevels oid p ls) oid := by
  induction ls with
  | nil =>
    intro lvl hl
    simp [removeFromLevels] at hl
  | cons l rest ih =>
    simp only [List.map_cons, List.pairwise_cons] at hdis
    by_cases hp : l.price = p
    · intro lvl hl x hx
      simp only [removeFromLevels, if_pos hp] at hl
      have hrest : ∀ lvl ∈ rest, ∀ x ∈ lvl.orders, x.order_id ≠ oid := by
        intro lvl' hl' x' hx'
        have hne : lvl'.price ≠ p := by
          have := hdis.1 lvl'.price (List.mem_map_of_mem _ hl')
          rw [hp] at this
          exact fun hcontra => this hcontra.symm
        exact hconf lvl' (List.mem_cons_of_mem _ hl') hne x' hx'
      split at hl
      · exact hrest lvl hl x hx
      · rcases List.mem_cons.mp hl with h | h
        · subst h
          exact removeOrderGo_fst_no_id oid l.orders l.total_volume x hx
        · exact hrest lvl h x hx
    · intro lvl hl x hx
      simp only [removeFromLevels, if_neg hp] at hl
      rcases List.mem_cons.mp hl with h | h
      · subst h
        exact hconf lvl (List.mem_cons_self _ _) hp x hx
      · exact ih (fun lvl' hl' => hconf lvl' (List.mem_cons_of_mem _ hl')) hdis.2 lvl h x hx

/-- Erasing an id from the index makes it unresolvable. -/
theorem mapLookup_erase_self (m : List Order) (oid : Nat) :
    mapLookup (mapErase m oid) oid = none := by
  unfold mapLookup mapErase
  rw [List.find?_eq_none]
  intro x hx
  have := (List.mem_filter.mp hx).2
  simpa using this

/-- The three components `cancel_order` rewrites on a successful
lookup: the index loses the id, and the looked-up order's own side has
the level at its price scrubbed. -/
theorem cancel_order_fields (b : OrderBookImpl) (oid : Nat) (o : Order)
    (h : mapLookup b.order_map oid = some o) :
    (cancel_order b oid).1.order_map = mapErase b.order_map oid ∧
    (cancel_order b oid).1.buy_levels =
      (if o.side = Side.buy then removeFromLevels oid o.price b.buy_levels
       else b.buy_levels) ∧
    (cancel_order b oid).1.sell_levels =
      (if o.side = Side.sell then removeFromLevels oid o.price b.sell_levels
       else b.sell_levels) := by
  unfold cancel_order
  rw [h]
  obtain ⟨oi, sy, pr, qu, ts, ci, sd⟩ := o
  cases sd <;> simp

/-- C9: modifying a resting order to a zero quantity or non-positive
price removes it from the book entirely — the state is exactly the
post-cancel state, the id no longer resolves, and (under the `std::map`
well-formedness of the level lists) no level retains it — yet
`modify_order` still returns the new order as a success value, and the
engine wrapper counts the request in `modified_orders`. -/
theorem C9_modify_to_invalid_removes_order_but_reports_success
    (b : OrderBookImpl) (oid : Nat) (np : Int) (nq now : Nat) (o : Order)
    (hlook : mapLookup b.order_map oid = some o)
    (hinv : nq = 0 ∨ np ≤ 0)
    (hdisB : (b.buy_levels.map (fun l => l.price)).Pairwise (fun a c => a ≠ c))
    (hdisS : (b.sell_levels.map (fun l => l.price)).Pairwise (fun a c => a ≠ c))
    (hconfB : ∀ lvl ∈ b.buy_levels,
      (o.side = Side.buy ∧ lvl.price = o.price) ∨ ∀ x ∈ lvl.orders, x.order_id ≠ oid)
    (hconfS : ∀ lvl ∈ b.sell_levels,
      (o.side = Side.sell ∧ lvl.price = o.price) ∨ ∀ x ∈ lvl.orders, x.order_id ≠ oid) :
    (modify_order b oid np nq now).2 =
      some { o with price := np, quantity := nq, timestamp_ns := now } ∧
    (modify_order b oid np nq now).1 = (cancel_order b oid).1 ∧
    mapLookup (modify_order b oid np nq now).1.order_map oid = none ∧
    levelsNoId (modify_order b oid np nq now).1.buy_levels oid ∧
    levelsNoId (modify_order b oid np nq now).1.sell_levels oid ∧
    (∀ (books : Books) (stats : MatchingEngineStats) (sym : Nat),
      booksLookup books sym = some b →
      (process_modify_order books stats sym oid np nq now).2.modified_orders =
        stats.modified_orders + 1) := by
  have hpres := modify_order_present b oid np nq now o hlook
  have hreject : add_order (cancel_order b oid).1
      { o with price := np, quantity := nq, timestamp_ns := now } =
      ((cancel_order b oid).1, []) := by
    apply add_order_invalid
    rcases hinv with h | h
    · exact Or.inl h
    · exact Or.inr (Or.inl h)
  have hstate : (modify_order b oid np nq now).1 = (cancel_order b oid).1 := by
    rw [hpres, hreject]
  obtain ⟨hcancel_map, hcancelB, hcancelS⟩ := cancel_order_fields b oid o hlook
  refine ⟨by rw [hpres], hstate, ?_, ?_, ?_, ?_⟩
  · rw [hstate, hcancel_map]
    exact mapLookup_erase_self b.order_map oid
  · rw [hstate, hcancelB]
    cases hs : o.side with
    | buy =>
      simp only [if_pos rfl]
      apply removeFromLevels_no_id oid o.price b.buy_levels _ hdisB
      intro lvl hl hne
      rcases hconfB lvl hl with h | h
      · exact absurd h.2 hne
      · exact h
    | sell =>
      simp only [if_neg (by decide : ¬(Side.sell = Side.buy))]
      intro lvl hl x hx
      rcases hconfB lvl hl with h | h
      · rw [hs] at h
        cases h.1
      · exact h x hx
  · rw [hstate, hcancelS]
    cases hs : o.side with
    | buy =>
      simp only [if_neg (by decide : ¬(Side.buy = Side.sell))]
      intro lvl hl x hx
      rcases hconfS lvl hl with h | h
      · rw [hs] at h
        cases h.1
      · exact h x hx
    | sell =>
      simp only [if_pos rfl]
      apply removeFromLevels_no_id oid o.price b.sell_levels _ hdisS
      intro lvl hl hne
      rcases hconfS lvl hl with h | h
      · exact absurd h.2 hne
      · exact h
  · intro books stats sym hb
    unfold process_modify_order
    rw [hb]
    dsimp only
    rw [hpres]

/-- Concrete instantiation of C9: modifying `wBook1`'s resting order to
quantity 0 empties the book but reports success, and the engine counts
it as modified. -/
theorem C9_witness :
    (modify_order wBook1 1 101 0 99).2 =
      some { wOrder1 with price := 101, quantity := 0, timestamp_ns := 99 } ∧
    mapLookup (modify_order wBook1 1 101 0 99).1.order_map 1 = none ∧
    levelsNoId (modify_order wBook1 1 101 0 99).1.buy_levels 1 ∧
    (process_modify_order [(7, wBook1)] wStats0 7 1 101 0 99).2.modified_orders = 1 := by
  have hmain := C9_modify_to_invalid_removes_order_but_reports_success
    wBook1 1 101 0 99 wOrder1 (by decide) (Or.inl rfl) (by decide) (by decide)
    (by decide) (by decide)
  exact ⟨hmain.1, hmain.2.2.1, hmain.2.2.2.1,
    hmain.2.2.2.2.2 [(7, wBook1)] wStats0 7 (by decide)⟩

/-! ## C1: lemmas about the matching loops -/

/-- The level prices of a list of levels, in list order. -/
def pricesOf (ls : List PriceLevelImpl) : List Int :=
  ls.map (fun l => l.price)

theorem sumQty_append (xs ys : List Trade) :
    sumQty (xs ++ ys) = sumQty xs + sumQty ys := by
  induction xs with
  | nil => simp [sumQty]
  | cons x xs ih =>
    simp [sumQty] at ih ⊢
    omega

/-- Unfolding of `matchOneLevel` on an exhausted aggressor: the loop
condition fails, the level stays. -/
theorem matchOneLevel_cons_done (a : Order) (p : Int) (r : Order) (rest : List Order)
    (tv : Nat) (m : List Order) (tid : Nat) (h0 : a.quantity = 0) :
    matchOneLevel a p (r :: rest) tv m tid = ⟨[], a, some ⟨p, r :: rest, tv⟩, m, tid⟩ := by
  simp only [matchOneLevel, if_pos h0]

/-- Unfolding of `matchOneLevel` when the front resting order is fully
consumed: emit the trade, erase the order from the index, pop it, and
continue on the remaining queue. -/
theorem matchOneLevel_cons_full (a : Order) (p : Int) (r : Order) (rest : List Order)
    (tv : Nat) (m : List Order) (tid : Nat) (h0 : ¬a.quantity = 0)
    (hfull : r.quantity - min a.quantity r.quantity = 0) :
    matchOneLevel a p (r :: rest) tv m tid =
      { matchOneLevel { a with quantity := a.quantity - min a.quantity r.quantity } p rest
          (u32sub tv (min a.quantity r.quantity)) (mapErase m r.order_id) (tid + 1) with
        trades := generate_trade tid a r (min a.quantity r.quantity) p ::
          (matchOneLevel { a with quantity := a.quantity - min a.quantity r.quantity } p rest
            (u32sub tv (min a.quantity r.quantity)) (mapErase m r.order_id) (tid + 1)).trades } := by
  simp only [matchOneLevel, if_neg h0, if_pos hfull]

/-- Unfolding of `matchOneLevel` on a partial fill of the front resting
order: emit the trade, shrink the resting order in place (queue, index
and aggregate), and stop. -/
theorem matchOneLevel_cons_partfill (a : Order) (p : Int) (r : Order) (rest : List Order)
    (tv : Nat) (m : List Order) (tid : Nat) (h0 : ¬a.quantity = 0)
    (hfull : ¬r.quantity - min a.quantity r.quantity = 0) :
    matchOneLevel a p (r :: rest) tv m tid =
      ⟨[generate_trade tid a r (min a.quantity r.quantity) p],
        { a with quantity := a.quantity - min a.quantity r.quantity },
        some ⟨p, { r with quantity := r.quantity - min a.quantity r.quantity } :: rest,
          u32sub tv (min a.quantity r.quantity)⟩,
        mapSetQty m r.order_id (r.quantity - min a.quantity r.quantity), tid + 1⟩ := by
  simp only [matchOneLevel, if_neg h0, if_neg hfull]

theorem sumQty_nil : sumQty [] = 0 := rfl

theorem sumQty_cons (t : Trade) (ts : List Trade) :
    sumQty (t :: ts) = t.quantity + sumQty ts := rfl

/-- The matching loop never changes the aggressor's identity, price or
side: only its remaining quantity. -/
theorem matchOneLevel_aggr (p : Int) (os : List Order) :
    ∀ (a : Order) (tv : Nat) (m : List Order) (tid : Nat),
      ∃ q, (matchOneLevel a p os tv m tid).aggressor = { a with quantity := q } := by
  induction os with
  | nil =>
    intro a tv m tid
    exact ⟨a.quantity, rfl⟩
  | cons r rest ih =>
    intro a tv m tid
    by_cases h0 : a.quantity = 0
    · rw [matchOneLevel_cons_done a p r rest tv m tid h0]
      exact ⟨a.quantity, rfl⟩
    · by_cases hfull : r.quantity - min a.quantity r.quantity = 0
      · rw [matchOneLevel_cons_full a p r rest tv m tid h0 hfull]
        obtain ⟨q, hq⟩ := ih { a with quantity := a.quantity - min a.quantity r.quantity }
          (u32sub tv (min a.quantity r.quantity)) (mapErase m r.order_id) (tid + 1)
        exact ⟨q, hq⟩
      · rw [matchOneLevel_cons_partfill a p r rest tv m tid h0 hfull]
        exact ⟨a.quantity - min a.quantity r.quantity, rfl⟩

/-- Quantity conservation inside one level: the emitted trade quantities
and the aggressor's residual account exactly for its initial quantity. -/
theorem matchOneLevel_conservation (p : Int) (os : List Order) :
    ∀ (a : Order) (tv : Nat) (m : List Order) (tid : Nat),
      sumQty (matchOneLevel a p os tv m tid).trades +
        (matchOneLevel a p os tv m tid).aggressor.quantity = a.quantity := by
  induction os with
  | nil =>
    intro a tv m tid
    simp [matchOneLevel, sumQty]
  | cons r rest ih =>
    intro a tv m tid
    by_cases h0 : a.quantity = 0
    · rw [matchOneLevel_cons_done a p r rest tv m tid h0]
      simp [sumQty, h0]
    · by_cases hfull : r.quantity - min a.quantity r.quantity = 0
      · rw [matchOneLevel_cons_full a p r rest tv m tid h0 hfull]
        have hih : sumQty (matchOneLevel
              { a with quantity := a.quantity - min a.quantity r.quantity } p rest
              (u32sub tv (min a.quantity r.quantity)) (mapErase m r.order_id) (tid + 1)).trades +
            (matchOneLevel { a with quantity := a.quantity - min a.quantity r.quantity } p rest
              (u32sub tv (min a.quantity r.quantity)) (mapErase m r.order_id)
              (tid + 1)).aggressor.quantity =
            a.quantity - min a.quantity r.quantity := ih _ _ _ _
        simp only [sumQty_cons, generate_trade]
        omega
      · rw [matchOneLevel_cons_partfill a p r rest tv m tid h0 hfull]
        simp only [sumQty_cons, sumQty_nil, generate_trade]
        omega

/-- Every trade emitted against one level carries that level's price and
the id of a resting order of that level in its passive-id field. -/
theorem matchOneLevel_trades (p : Int) (os : List Order) :
    ∀ (a : Order) (tv : Nat) (m : List Order) (tid : Nat),
      ∀ t ∈ (matchOneLevel a p os tv m tid).trades,
        t.price = p ∧ ∃ ro ∈ os, ro.order_id = t.sell_order_id := by
  induction os with
  | nil =>
    intro a tv m tid t ht
    simp [matchOneLevel] at ht
  | cons r rest ih =>
    intro a tv m tid t ht
    by_cases h0 : a.quantity = 0
    · rw [matchOneLevel_cons_done a p r rest tv m tid h0] at ht
      simp at ht
    · by_cases hfull : r.quantity - min a.quantity r.quantity = 0
      · rw [matchOneLevel_cons_full a p r rest tv m tid h0 hfull] at ht
        rcases List.mem_cons.mp ht with h | h
        · subst h
          exact ⟨rfl, r, List.mem_cons_self _ _, rfl⟩
        · obtain ⟨hp, ro, hro, hid⟩ := ih _ _ _ _ t h
          exact ⟨hp, ro, List.mem_cons_of_mem _ hro, hid⟩
      · rw [matchOneLevel_cons_partfill a p r rest tv m tid h0 hfull] at ht
        rcases List.mem_cons.mp ht with h | h
        · subst h
          exact ⟨rfl, r, List.mem_cons_self _ _, rfl⟩
        · simp at h

/-- If the loop leaves the level in place, the aggressor is exhausted
(or was already) and the level keeps its price. -/
theorem matchOneLevel_level_some (p : Int) (os : List Order) :
    ∀ (a : Order) (tv : Nat) (m : List Order) (tid : Nat) (l' : PriceLevelImpl),
      (matchOneLevel a p os tv m tid).level = some l' →
      l'.price = p ∧ (matchOneLevel a p os tv m tid).aggressor.quantity = 0 := by
  induction os with
  | nil =>
    intro a tv m tid l' hl
    simp [matchOneLevel] at hl
  | cons r rest ih =>
    intro a tv m tid l' hl
    by_cases h0 : a.quantity = 0
    · rw [matchOneLevel_cons_done a p r rest tv m tid h0] at hl ⊢
      cases hl
      exact ⟨rfl, h0⟩
    · by_cases hfull : r.quantity - min a.quantity r.quantity = 0
      · rw [matchOneLevel_cons_full a p r rest tv m tid h0 hfull] at hl ⊢
        exact ih _ _ _ _ l' hl
      · rw [matchOneLevel_cons_partfill a p r rest tv m tid h0 hfull] at hl ⊢
        cases hl
        refine ⟨rfl, ?_⟩
        show a.quantity - min a.quantity r.quantity = 0
        omega

/-- Unfolding of `match_buy_order` on an exhausted aggressor. -/
theorem match_buy_cons_done (a : Order) (lvl : PriceLevelImpl)
    (rest : List PriceLevelImpl) (m : List Order) (tid : Nat) (h0 : a.quantity = 0) :
    match_buy_order a (lvl :: rest) m tid = ⟨[], a, lvl :: rest, m, tid⟩ := by
  simp only [match_buy_order, if_pos h0]

/-- Unfolding of `match_buy_order` when the buy price does not reach the
best ask: break with no cross. -/
theorem match_buy_cons_break (a : Order) (lvl : PriceLevelImpl)
    (rest : List PriceLevelImpl) (m : List Order) (tid : Nat)
    (h0 : ¬a.quantity = 0) (hbr : a.price < lvl.price) :
    match_buy_order a (lvl :: rest) m tid = ⟨[], a, lvl :: rest, m, tid⟩ := by
  simp only [match_buy_order, if_neg h0, if_pos hbr]

/-- Unfolding of `match_buy_order` when the engaged best level survives:
the loop ends there. -/
theorem match_buy_cons_some (a : Order) (lvl : PriceLevelImpl)
    (rest : List PriceLevelImpl) (m : List Order) (tid : Nat)
    (l' : PriceLevelImpl) (h0 : ¬a.quantity = 0) (hbr : ¬a.price < lvl.price)
    (hsome : (matchOneLevel a lvl.price lvl.orders lvl.total_volume m tid).level = some l') :
    match_buy_order a (lvl :: rest) m tid =
      ⟨(matchOneLevel a lvl.price lvl.orders lvl.total_volume m tid).trades,
        (matchOneLevel a lvl.price lvl.orders lvl.total_volume m tid).aggressor,
        l' :: rest,
        (matchOneLevel a lvl.price lvl.orders lvl.total_volume m tid).omap,
        (matchOneLevel a lvl.price lvl.orders lvl.total_volume m tid).tid⟩ := by
  simp only [match_buy_order, if_neg h0, if_neg hbr, hsome]

/-- Unfolding of `match_buy_order` when the engaged best level is
consumed and erased: recurse on the remaining levels. -/
theorem match_buy_cons_none (a : Order) (lvl : PriceLevelImpl)
    (rest : List PriceLevelImpl) (m : List Order) (tid : Nat)
    (h0 : ¬a.quantity = 0) (hbr : ¬a.price < lvl.price)
    (hnone : (matchOneLevel a lvl.price lvl.orders lvl.total_volume m tid).level = none) :
    match_buy_order a (lvl :: rest) m tid =
      ⟨(matchOneLevel a lvl.price lvl.orders lvl.total_volume m tid).trades ++
          (match_buy_order (matchOneLevel a lvl.price lvl.orders lvl.total_volume m tid).aggressor
            rest (matchOneLevel a lvl.price lvl.orders lvl.total_volume m tid).omap
            (matchOneLevel a lvl.price lvl.orders lvl.total_volume m tid).tid).trades,
        (match_buy_order (matchOneLevel a lvl.price lvl.orders lvl.total_volume m tid).aggressor
          rest (matchOneLevel a lvl.price lvl.orders lvl.total_volume m tid).omap
          (matchOneLevel a lvl.price lvl.orders lvl.total_volume m tid).tid).aggressor,
        (match_buy_order (matchOneLevel a lvl.price lvl.orders lvl.total_volume m tid).aggressor
          rest (matchOneLevel a lvl.price lvl.orders lvl.total_volume m tid).omap
          (matchOneLevel a lvl.price lvl.orders lvl.total_volume m tid).tid).levels,
        (match_buy_order (matchOneLevel a lvl.price lvl.orders lvl.total_volume m tid).aggressor
          rest (matchOneLevel a lvl.price lvl.orders lvl.total_volume m tid).omap
          (matchOneLevel a lvl.price lvl.orders lvl.total_volume m tid).tid).omap,
        (match_buy_order (matchOneLevel a lvl.price lvl.orders lvl.total_volume m tid).aggressor
          rest (matchOneLevel a lvl.price lvl.orders lvl.total_volume m tid).omap
          (matchOneLevel a lvl.price lvl.orders lvl.total_volume m tid).tid).tid⟩ := by
  simp only [match_buy_order, if_neg h0, if_neg hbr, hnone]

/-- Quantity conservation for a whole buy matching loop. -/
theorem match_buy_conservation (lvls : List PriceLevelImpl) :
    ∀ (a : Order) (m : List Order) (tid : Nat),
      sumQty (match_buy_order a lvls m tid).trades +
        (match_buy_order a lvls m tid).aggressor.quantity = a.quantity := by
  induction lvls with
  | nil =>
    intro a m tid
    simp [match_buy_order, sumQty]
  | cons lvl rest ih =>
    intro a m tid
    by_cases h0 : a.quantity = 0
    · rw [match_buy_cons_done a lvl rest m tid h0]
      simp [sumQty, h0]
    · by_cases hbr : a.price < lvl.price
      · rw [match_buy_cons_break a lvl rest m tid h0 hbr]
        simp [sumQty]
      · cases hl : (matchOneLevel a lvl.price lvl.orders lvl.total_volume m tid).level with
        | some l' =>
          rw [match_buy_cons_some a lvl rest m tid l' h0 hbr hl]
          exact matchOneLevel_conservation lvl.price lvl.orders a lvl.total_volume m tid
        | none =>
          rw [match_buy_cons_none a lvl rest m tid h0 hbr hl]
          dsimp only
          rw [sumQty_append]
          have h1 := matchOneLevel_conservation lvl.price lvl.orders a lvl.total_volume m tid
          have h2 := ih (matchOneLevel a lvl.price lvl.orders lvl.total_volume m tid).aggressor
            (matchOneLevel a lvl.price lvl.orders lvl.total_volume m tid).omap
            (matchOneLevel a lvl.price lvl.orders lvl.total_volume m tid).tid
          omega

/-- The buy loop leaves the aggressor's non-quantity fields intact. -/
theorem match_buy_aggr (lvls : List PriceLevelImpl) :
    ∀ (a : Order) (m : List Order) (tid : Nat),
      ∃ q, (match_buy_order a lvls m tid).aggressor = { a with quantity := q } := by
  induction lvls with
  | nil =>
    intro a m tid
    exact ⟨a.quantity, rfl⟩
  | cons lvl rest ih =>
    intro a m tid
    by_cases h0 : a.quantity = 0
    · rw [match_buy_cons_done a lvl rest m tid h0]
      exact ⟨a.quantity, rfl⟩
    · by_cases hbr : a.price < lvl.price
      · rw [match_buy_cons_break a lvl rest m tid h0 hbr]
        exact ⟨a.quantity, rfl⟩
      · cases hl : (matchOneLevel a lvl.price lvl.orders lvl.total_volume m tid).level with
        | some l' =>
          rw [match_buy_cons_some a lvl rest m tid l' h0 hbr hl]
          exact matchOneLevel_aggr lvl.price lvl.orders a lvl.total_volume m tid
        | none =>
          rw [match_buy_cons_none a lvl rest m tid h0 hbr hl]
          obtain ⟨q1, hq1⟩ := matchOneLevel_aggr lvl.price lvl.orders a lvl.total_volume m tid
          obtain ⟨q2, hq2⟩ := ih (matchOneLevel a lvl.price lvl.orders lvl.total_volume m tid).aggressor
            (matchOneLevel a lvl.price lvl.orders lvl.total_volume m tid).omap
            (matchOneLevel a lvl.price lvl.orders lvl.total_volume m tid).tid
          refine ⟨q2, ?_⟩
          rw [hq2, hq1]

/-- Every trade of a buy matching loop is priced at the level of its
passive order: the trade's price is some engaged level's price, and its
passive-id field names a resting order of that level. -/
theorem match_buy_trades_from_levels (lvls : List PriceLevelImpl) :
    ∀ (a : Order) (m : List Order) (tid : Nat),
      ∀ t ∈ (match_buy_order a lvls m tid).trades,
        ∃ lvl ∈ lvls, t.price = lvl.price ∧ ∃ ro ∈ lvl.orders, ro.order_id = t.sell_order_id := by
  induction lvls with
  | nil =>
    intro a m tid t ht
    simp [match_buy_order] at ht
  | cons lvl rest ih =>
    intro a m tid t ht
    by_cases h0 : a.quantity = 0
    · rw [match_buy_cons_done a lvl rest m tid h0] at ht
      simp at ht
    · by_cases hbr : a.price < lvl.price
      · rw [match_buy_cons_break a lvl rest m tid h0 hbr] at ht
        simp at ht
      · cases hl : (matchOneLevel a lvl.price lvl.orders lvl.total_volume m tid).level with
        | some l' =>
          rw [match_buy_cons_some a lvl rest m tid l' h0 hbr hl] at ht
          obtain ⟨hp, ro, hro, hid⟩ :=
            matchOneLevel_trades lvl.price lvl.orders a lvl.total_volume m tid t ht
          exact ⟨lvl, List.mem_cons_self _ _, hp, ro, hro, hid⟩
        | none =>
          rw [match_buy_cons_none a lvl rest m tid h0 hbr hl] at ht
          rcases List.mem_append.mp ht with h | h
          · obtain ⟨hp, ro, hro, hid⟩ :=
              matchOneLevel_trades lvl.price lvl.orders a lvl.total_volume m tid t h
            exact ⟨lvl, List.mem_cons_self _ _, hp, ro, hro, hid⟩
          · obtain ⟨lvl', hlvl', hp, ro, hro, hid⟩ := ih _ _ _ t h
            exact ⟨lvl', List.mem_cons_of_mem _ hlvl', hp, ro, hro, hid⟩

/-- For a buy aggressor, every trade executes at or below the buy
price. -/
theorem match_buy_prices_le (lvls : List PriceLevelImpl) :
    ∀ (a : Order) (m : List Order) (tid : Nat),
      ∀ t ∈ (match_buy_order a lvls m tid).trades, t.price ≤ a.price := by
  induction lvls with
  | nil =>
    intro a m tid t ht
    simp [match_buy_order] at ht
  | cons lvl rest ih =>
    intro a m tid t ht
    by_cases h0 : a.quantity = 0
    · rw [match_buy_cons_done a lvl rest m tid h0] at ht
      simp at ht
    · by_cases hbr : a.price < lvl.price
      · rw [match_buy_cons_break a lvl rest m tid h0 hbr] at ht
        simp at ht
      · cases hl : (matchOneLevel a lvl.price lvl.orders lvl.total_volume m tid).level with
        | some l' =>
          rw [match_buy_cons_some a lvl rest m tid l' h0 hbr hl] at ht
          have hp := (matchOneLevel_trades lvl.price lvl.orders a lvl.total_volume m tid t ht).1
          rw [hp]
          omega
        | none =>
          rw [match_buy_cons_none a lvl rest m tid h0 hbr hl] at ht
          rcases List.mem_append.mp ht with h | h
          · have hp := (matchOneLevel_trades lvl.price lvl.orders a lvl.total_volume m tid t h).1
            rw [hp]
            omega
          · have := ih _ _ _ t h
            obtain ⟨q1, hq1⟩ := matchOneLevel_aggr lvl.price lvl.orders a lvl.total_volume m tid
            rw [hq1] at this
            exact this

/-- A list all of whose elements are one value is weakly increasing. -/
theorem pairwise_le_of_const (c : Int) (l : List Int) (h : ∀ x ∈ l, x = c) :
    l.Pairwise (fun x y => x ≤ y) := by
  induction l with
  | nil => exact List.Pairwise.nil
  | cons x xs ih =>
    refine List.Pairwise.cons ?_ (ih fun y hy => h y (List.mem_cons_of_mem _ hy))
    intro y hy
    rw [h x (List.mem_cons_self _ _), h y (List.mem_cons_of_mem _ hy)]

/-- For a buy aggressor walking ask levels sorted by increasing price,
the trade prices are non-decreasing in emission order. -/
theorem match_buy_pairwise (lvls : List PriceLevelImpl) :
    ∀ (a : Order) (m : List Order) (tid : Nat),
      (pricesOf lvls).Pairwise (fun x y => x ≤ y) →
      ((match_buy_order a lvls m tid).trades.map (fun t => t.price)).Pairwise
        (fun x y => x ≤ y) := by
  induction lvls with
  | nil =>
    intro a m tid _
    simp [match_buy_order]
  | cons lvl rest ih =>
    intro a m tid hsort
    rw [pricesOf, List.map_cons, List.pairwise_cons] at hsort
    by_cases h0 : a.quantity = 0
    · rw [match_buy_cons_done a lvl rest m tid h0]
      simp
    · by_cases hbr : a.price < lvl.price
      · rw [match_buy_cons_break a lvl rest m tid h0 hbr]
        simp
      · cases hl : (matchOneLevel a lvl.price lvl.orders lvl.total_volume m tid).level with
        | some l' =>
          rw [match_buy_cons_some a lvl rest m tid l' h0 hbr hl]
          apply pairwise_le_of_const lvl.price
          intro x hx
          obtain ⟨t, ht, rfl⟩ := List.mem_map.mp hx
          exact (matchOneLevel_trades lvl.price lvl.orders a lvl.total_volume m tid t ht).1
        | none =>
          rw [match_buy_cons_none a lvl rest m tid h0 hbr hl]
          rw [List.map_append]
          rw [List.pairwise_append]
          refine ⟨?_, ih _ _ _ hsort.2, ?_⟩
          · apply pairwise_le_of_const lvl.price
            intro x hx
            obtain ⟨t, ht, rfl⟩ := List.mem_map.mp hx
            exact (matchOneLevel_trades lvl.price lvl.orders a lvl.total_volume m tid t ht).1
          · intro x hx y hy
            obtain ⟨t, ht, rfl⟩ := List.mem_map.mp hx
            obtain ⟨u, hu, rfl⟩ := List.mem_map.mp hy
            have hx' := (matchOneLevel_trades lvl.price lvl.orders a lvl.total_volume m tid t ht).1
            obtain ⟨lvl', hlvl', hy', _⟩ := match_buy_trades_from_levels rest _ _ _ u hu
            rw [hx', hy']
            exact hsort.1 lvl'.price (List.mem_map_of_mem _ hlvl')

/-- Unfolding of `match_sell_order` on an exhausted aggressor. -/
theorem match_sell_cons_done (a : Order) (lvl : PriceLevelImpl)
    (rest : List PriceLevelImpl) (m : List Order) (tid : Nat) (h0 : a.quantity = 0) :
    match_sell_order a (lvl :: rest) m tid = ⟨[], a, lvl :: rest, m, tid⟩ := by
  simp only [match_sell_order, if_pos h0]

/-- Unfolding of `match_sell_order` when the sell price is above the
best bid: break with no cross. -/
theorem match_sell_cons_break (a : Order) (lvl : PriceLevelImpl)
    (rest : List PriceLevelImpl) (m : List Order) (tid : Nat)
    (h0 : ¬a.quantity = 0) (hbr : a.price > lvl.price) :
    match_sell_order a (lvl :: rest) m tid = ⟨[], a, lvl :: rest, m, tid⟩ := by
  simp only [match_sell_order, if_neg h0, if_pos hbr]

/-- Unfolding of `match_sell_order` when the engaged best level
survives: the loop ends there. -/
theorem match_sell_cons_some (a : Order) (lvl : PriceLevelImpl)
    (rest : List PriceLevelImpl) (m : List Order) (tid : Nat)
    (l' : PriceLevelImpl) (h0 : ¬a.quantity = 0) (hbr : ¬a.price > lvl.price)
    (hsome : (matchOneLevel a lvl.price lvl.orders lvl.total_volume m tid).level = some l') :
    match_sell_order a (lvl :: rest) m tid =
      ⟨(matchOneLevel a lvl.price lvl.orders lvl.total_volume m tid).trades,
        (matchOneLevel a lvl.price lvl.orders lvl.total_volume m tid).aggressor,
        l' :: rest,
        (matchOneLevel a lvl.price lvl.orders lvl.total_volume m tid).omap,
        (matchOneLevel a lvl.price lvl.orders lvl.total_volume m tid).tid⟩ := by
  simp only [match_sell_order, if_neg h0, if_neg hbr, hsome]

/-- Unfolding of `match_sell_order` when the engaged best level is
consumed and erased: recurse on the remaining levels. -/
theorem match_sell_cons_none (a : Order) (lvl : PriceLevelImpl)
    (rest : List PriceLevelImpl) (m : List Order) (tid : Nat)
    (h0 : ¬a.quantity = 0) (hbr : ¬a.price > lvl.price)
    (hnone : (matchOneLevel a lvl.price lvl.orders lvl.total_volume m tid).level = none) :
    match_sell_order a (lvl :: rest) m tid =
      ⟨(matchOneLevel a lvl.price lvl.orders lvl.total_volume m tid).trades ++
          (match_sell_order (matchOneLevel a lvl.price lvl.orders lvl.total_volume m tid).aggressor
            rest (matchOneLevel a lvl.price lvl.orders lvl.total_volume m tid).omap
            (matchOneLevel a lvl.price lvl.orders lvl.total_volume m tid).tid).trades,
        (match_sell_order (matchOneLevel a lvl.price lvl.orders lvl.total_volume m tid).aggressor
          rest (matchOneLevel a lvl.price lvl.orders lvl.total_volume m tid).omap
          (matchOneLevel a lvl.price lvl.orders lvl.total_volume m tid).tid).aggressor,
        (match_sell_order (matchOneLevel a lvl.price lvl.orders lvl.total_volume m tid).aggressor
          rest (matchOneLevel a lvl.price lvl.orders lvl.total_volume m tid).omap
          (matchOneLevel a lvl.price lvl.orders lvl.total_volume m tid).tid).levels,
        (match_sell_order (matchOneLevel a lvl.price lvl.orders lvl.total_volume m tid).aggressor
          rest (matchOneLevel a lvl.price lvl.orders lvl.total_volume m tid).omap
          (matchOneLevel a lvl.price lvl.orders lvl.total_volume m tid).tid).omap,
        (match_sell_order (matchOneLevel a lvl.price lvl.orders lvl.total_volume m tid).aggressor
          rest (matchOneLevel a lvl.price lvl.orders lvl.total_volume m tid).omap
          (matchOneLevel a lvl.price lvl.orders lvl.total_volume m tid).tid).tid⟩ := by
  simp only [match_sell_order, if_neg h0, if_neg hbr, hnone]

/-- Quantity conservation for a whole sell matching loop. -/
theorem match_sell_conservation (lvls : List PriceLevelImpl) :
    ∀ (a : Order) (m : List Order) (tid : Nat),
      sumQty (match_sell_order a lvls m tid).trades +
        (match_sell_order a lvls m tid).aggressor.quantity = a.quantity := by
  induction lvls with
  | nil =>
    intro a m tid
    simp [match_sell_order, sumQty]
  | cons lvl rest ih =>
    intro a m tid
    by_cases h0 : a.quantity = 0
    · rw [match_sell_cons_done a lvl rest m tid h0]
      simp [sumQty, h0]
    · by_cases hbr : a.price > lvl.price
      · rw [match_sell_cons_break a lvl rest m tid h0 hbr]
        simp [sumQty]
      · cases hl : (matchOneLevel a lvl.price lvl.orders lvl.total_volume m tid).level with
        | some l' =>
          rw [match_sell_cons_some a lvl rest m tid l' h0 hbr hl]
          exact matchOneLevel_conservation lvl.price lvl.orders a lvl.total_volume m tid
        | none =>
          rw [match_sell_cons_none a lvl rest m tid h0 hbr hl]
          dsimp only
          rw [sumQty_append]
          have h1 := matchOneLevel_conservation lvl.price lvl.orders a lvl.total_volume m tid
          have h2 := ih (matchOneLevel a lvl.price lvl.orders lvl.total_volume m tid).aggressor
            (matchOneLevel a lvl.price lvl.orders lvl.total_volume m tid).omap
            (matchOneLevel a lvl.price lvl.orders lvl.total_volume m tid).tid
          omega

/-- The sell loop leaves the aggressor's non-quantity fields intact. -/
theorem match_sell_aggr (lvls : List PriceLevelImpl) :
    ∀ (a : Order) (m : List Order) (tid : Nat),
      ∃ q, (match_sell_order a lvls m tid).aggressor = { a with quantity := q } := by
  induction lvls with
  | nil =>
    intro a m tid
    exact ⟨a.quantity, rfl⟩
  | cons lvl rest ih =>
    intro a m tid
    by_cases h0 : a.quantity = 0
    · rw [match_sell_cons_done a lvl rest m tid h0]
      exact ⟨a.quantity, rfl⟩
    · by_cases hbr : a.price > lvl.price
      · rw [match_sell_cons_break a lvl rest m tid h0 hbr]
        exact ⟨a.quantity, rfl⟩
      · cases hl : (matchOneLevel a lvl.price lvl.orders lvl.total_volume m tid).level with
        | some l' =>
          rw [match_sell_cons_some a lvl rest m tid l' h0 hbr hl]
          exact matchOneLevel_aggr lvl.price lvl.orders a lvl.total_volume m tid
        | none =>
          rw [match_sell_cons_none a lvl rest m tid h0 hbr hl]
          obtain ⟨q1, hq1⟩ := matchOneLevel_aggr lvl.price lvl.orders a lvl.total_volume m tid
          obtain ⟨q2, hq2⟩ := ih (matchOneLevel a lvl.price lvl.orders lvl.total_volume m tid).aggressor
            (matchOneLevel a lvl.price lvl.orders lvl.total_volume m tid).omap
            (matchOneLevel a lvl.price lvl.orders lvl.total_volume m tid).tid
          refine ⟨q2, ?_⟩
          rw [hq2, hq1]

/-- Every trade of a sell matching loop is priced at the level of its
passive order. -/
theorem match_sell_trades_from_levels (lvls : List PriceLevelImpl) :
    ∀ (a : Order) (m : List Order) (tid : Nat),
      ∀ t ∈ (match_sell_order a lvls m tid).trades,
        ∃ lvl ∈ lvls, t.price = lvl.price ∧ ∃ ro ∈ lvl.orders, ro.order_id = t.sell_order_id := by
  induction lvls with
  | nil =>
    intro a m tid t ht
    simp [match_sell_order] at ht
  | cons lvl rest ih =>
    intro a m tid t ht
    by_cases h0 : a.quantity = 0
    · rw [match_sell_cons_done a lvl rest m tid h0] at ht
      simp at ht
    · by_cases hbr : a.price > lvl.price
      · rw [match_sell_cons_break a lvl rest m tid h0 hbr] at ht
        simp at ht
      · cases hl : (matchOneLevel a lvl.price lvl.orders lvl.total_volume m tid).level with
        | some l' =>
          rw [match_sell_cons_some a lvl rest m tid l' h0 hbr hl] at ht
          obtain ⟨hp, ro, hro, hid⟩ :=
            matchOneLevel_trades lvl.price lvl.orders a lvl.total_volume m tid t ht
          exact ⟨lvl, List.mem_cons_self _ _, hp, ro, hro, hid⟩
        | none =>
          rw [match_sell_cons_none a lvl rest m tid h0 hbr hl] at ht
          rcases List.mem_append.mp ht with h | h
          · obtain ⟨hp, ro, hro, hid⟩ :=
              matchOneLevel_trades lvl.price lvl.orders a lvl.total_volume m tid t h
            exact ⟨lvl, List.mem_cons_self _ _, hp, ro, hro, hid⟩
          · obtain ⟨lvl', hlvl', hp, ro, hro, hid⟩ := ih _ _ _ t h
            exact ⟨lvl', List.mem_cons_of_mem _ hlvl', hp, ro, hro, hid⟩

/-- For a sell aggressor, every trade executes at or above the sell
price. -/
theorem match_sell_prices_ge (lvls : List PriceLevelImpl) :
    ∀ (a : Order) (m : List Order) (tid : Nat),
      ∀ t ∈ (match_sell_order a lvls m tid).trades, a.price ≤ t.price := by
  induction lvls with
  | nil =>
    intro a m tid t ht
    simp [match_sell_order] at ht
  | cons lvl rest ih =>
    intro a m tid t ht
    by_cases h0 : a.quantity = 0
    · rw [match_sell_cons_done a lvl rest m tid h0] at ht
      simp at ht
    · by_cases hbr : a.price > lvl.price
      · rw [match_sell_cons_break a lvl rest m tid h0 hbr] at ht
        simp at ht
      · cases hl : (matchOneLevel a lvl.price lvl.orders lvl.total_volume m tid).level with
        | some l' =>
          rw [match_sell_cons_some a lvl rest m tid l' h0 hbr hl] at ht
          have hp := (matchOneLevel_trades lvl.price lvl.orders a lvl.total_volume m tid t ht).1
          rw [hp]
          omega
        | none =>
          rw [match_sell_cons_none a lvl rest m tid h0 hbr hl] at ht
          rcases List.mem_append.mp ht with h | h
          · have hp := (matchOneLevel_trades lvl.price lvl.orders a lvl.total_volume m tid t h).1
            rw [hp]
            omega
          · have := ih _ _ _ t h
            obtain ⟨q1, hq1⟩ := matchOneLevel_aggr lvl.price lvl.orders a lvl.total_volume m tid
            rw [hq1] at this
            exact this

/-- A list all of whose elements are one value is weakly decreasing. -/
theorem pairwise_ge_of_const (c : Int) (l : List Int) (h : ∀ x ∈ l, x = c) :
    l.Pairwise (fun x y => y ≤ x) := by
  induction l with
  | nil => exact List.Pairwise.nil
  | cons x xs ih =>
    refine List.Pairwise.cons ?_ (ih fun y hy => h y (List.mem_cons_of_mem _ hy))
    intro y hy
    rw [h x (List.mem_cons_self _ _), h y (List.mem_cons_of_mem _ hy)]

/-- For a sell aggressor walking bid levels sorted by decreasing price,
the trade prices are non-increasing in emission order. -/
theorem match_sell_pairwise (lvls : List PriceLevelImpl) :
    ∀ (a : Order) (m : List Order) (tid : Nat),
      (pricesOf lvls).Pairwise (fun x y => y ≤ x) →
      ((match_sell_order a lvls m tid).trades.map (fun t => t.price)).Pairwise
        (fun x y => y ≤ x) := by
  induction lvls with
  | nil =>
    intro a m tid _
    simp [match_sell_order]
  | cons lvl rest ih =>
    intro a m tid hsort
    rw [pricesOf, List.map_cons, List.pairwise_cons] at hsort
    by_cases h0 : a.quantity = 0
    · rw [match_sell_cons_done a lvl rest m tid h0]
      simp
    · by_cases hbr : a.price > lvl.price
      · rw [match_sell_cons_break a lvl rest m tid h0 hbr]
        simp
      · cases hl : (matchOneLevel a lvl.price lvl.orders lvl.total_volume m tid).level with
        | some l' =>
          rw [match_sell_cons_some a lvl rest m tid l' h0 hbr hl]
          apply pairwise_ge_of_const lvl.price
          intro x hx
          obtain ⟨t, ht, rfl⟩ := List.mem_map.mp hx
          exact (matchOneLevel_trades lvl.price lvl.orders a lvl.total_volume m tid t ht).1
        | none =>
          rw [match_sell_cons_none a lvl rest m tid h0 hbr hl]
          rw [List.map_append]
          rw [List.pairwise_append]
          refine ⟨?_, ih _ _ _ hsort.2, ?_⟩
          · apply pairwise_ge_of_const lvl.price
            intro x hx
            obtain ⟨t, ht, rfl⟩ := List.mem_map.mp hx
            exact (matchOneLevel_trades lvl.price lvl.orders a lvl.total_volume m tid t ht).1
          · intro x hx y hy
            obtain ⟨t, ht, rfl⟩ := List.mem_map.mp hx
            obtain ⟨u, hu, rfl⟩ := List.mem_map.mp hy
            have hx' := (matchOneLevel_trades lvl.price lvl.orders a lvl.total_volume m tid t ht).1
            obtain ⟨lvl', hlvl', hy', _⟩ := match_sell_trades_from_levels rest _ _ _ u hu
            rw [hx', hy']
            exact hsort.1 lvl'.price (List.mem_map_of_mem _ hlvl')

/-- The trades returned by a valid, non-duplicate buy `add_order` are
those of its matching loop. -/
theorem add_order_trades_buy (b : OrderBookImpl) (o : Order)
    (hv : ¬(o.quantity = 0 ∨ o.price ≤ 0))
    (hd : ¬(mapLookup b.order_map o.order_id).isSome = true)
    (hside : o.side = Side.buy) :
    (add_order b o).2 = (match_buy_order o b.sell_levels b.order_map b.next_trade_id).trades := by
  unfold add_order
  rw [if_neg hv, if_neg hd, hside]
  dsimp only
  split <;> rfl

/-- The trades returned by a valid, non-duplicate sell `add_order` are
those of its matching loop. -/
theorem add_order_trades_sell (b : OrderBookImpl) (o : Order)
    (hv : ¬(o.quantity = 0 ∨ o.price ≤ 0))
    (hd : ¬(mapLookup b.order_map o.order_id).isSome = true)
    (hside : o.side = Side.sell) :
    (add_order b o).2 = (match_sell_order o b.buy_levels b.order_map b.next_trade_id).trades := by
  unfold add_order
  rw [if_neg hv, if_neg hd, hside]
  dsimp only
  split <;> rfl

/-! ## C1 -/

/-- C1: for any book whose sides are price-sorted (as the `std::map`
comparators keep them) and any incoming order, the trades of one
`add_order` each execute at the price of the level holding the passive
order, their quantities sum to at most the incoming quantity, for an
incoming buy every price is ≤ the incoming price and the prices are
non-decreasing in return order, and symmetrically for an incoming
sell. -/
theorem C1_add_order_trade_discipline (b : OrderBookImpl) (o : Order)
    (hsortS : (pricesOf b.sell_levels).Pairwise (fun x y => x ≤ y))
    (hsortB : (pricesOf b.buy_levels).Pairwise (fun x y => y ≤ x)) :
    sumQty (add_order b o).2 ≤ o.quantity ∧
    (∀ t ∈ (add_order b o).2,
      ∃ lvl ∈ (if o.side = Side.buy then b.sell_levels else b.buy_levels),
        t.price = lvl.price ∧ ∃ ro ∈ lvl.orders, ro.order_id = t.sell_order_id) ∧
    (o.side = Side.buy →
      (∀ t ∈ (add_order b o).2, t.price ≤ o.price) ∧
      ((add_order b o).2.map (fun t => t.price)).Pairwise (fun x y => x ≤ y)) ∧
    (o.side = Side.sell →
      (∀ t ∈ (add_order b o).2, o.price ≤ t.price) ∧
      ((add_order b o).2.map (fun t => t.price)).Pairwise (fun x y => y ≤ x)) := by
  by_cases hv : o.quantity = 0 ∨ o.price ≤ 0
  · have hres : add_order b o = (b, []) := by
      apply add_order_invalid
      rcases hv with h | h
      · exact Or.inl h
      · exact Or.inr (Or.inl h)
    rw [hres]
    refine ⟨Nat.zero_le _, ?_, fun _ => ⟨?_, ?_⟩, fun _ => ⟨?_, ?_⟩⟩ <;> simp
  · by_cases hd : (mapLookup b.order_map o.order_id).isSome = true
    · have hres : add_order b o = (b, []) :=
        add_order_invalid b o (Or.inr (Or.inr hd))
      rw [hres]
      refine ⟨Nat.zero_le _, ?_, fun _ => ⟨?_, ?_⟩, fun _ => ⟨?_, ?_⟩⟩ <;> simp
    · cases hside : o.side with
      | buy =>
        have ht := add_order_trades_buy b o hv hd hside
        rw [ht]
        refine ⟨?_, ?_, fun _ => ⟨?_, ?_⟩, fun hcontra => ?_⟩
        · have := match_buy_conservation b.sell_levels o b.order_map b.next_trade_id
          omega
        · rw [if_pos rfl]
          exact match_buy_trades_from_levels b.sell_levels o b.order_map b.next_trade_id
        · exact match_buy_prices_le b.sell_levels o b.order_map b.next_trade_id
        · exact match_buy_pairwise b.sell_levels o b.order_map b.next_trade_id hsortS
        · cases hcontra
      | sell =>
        have ht := add_order_trades_sell b o hv hd hside
        rw [ht]
        refine ⟨?_, ?_, fun hcontra => ?_, fun _ => ⟨?_, ?_⟩⟩
        · have := match_sell_conservation b.buy_levels o b.order_map b.next_trade_id
          omega
        · rw [if_neg (by decide : ¬(Side.sell = Side.buy))]
          exact match_sell_trades_from_levels b.buy_levels o b.order_map b.next_trade_id
        · cases hcontra
        · exact match_sell_prices_ge b.buy_levels o b.order_map b.next_trade_id
        · exact match_sell_pairwise b.buy_levels o b.order_map b.next_trade_id hsortB

/-- A resting ask at 100 used in the C1 witness. -/
def oS1 : Order :=
  { order_id := 11, symbol_id := 1, price := 100, quantity := 10,
    timestamp_ns := 1, client_id := 0, side := .sell }

/-- A resting ask at 101 used in the C1 witness. -/
def oS2 : Order :=
  { order_id := 12, symbol_id := 1, price := 101, quantity := 20,
    timestamp_ns := 2, client_id := 0, side := .sell }

/-- A two-ask-level book used in the C1 witness. -/
def bkC1 : OrderBookImpl :=
  { symbol_id := 1, buy_levels := [],
    sell_levels := [⟨100, [oS1], 10⟩, ⟨101, [oS2], 20⟩],
    order_map := [oS1, oS2], next_trade_id := 1 }

/-- A buy order crossing both ask levels of `bkC1`. -/
def oC1 : Order :=
  { order_id := 9, symbol_id := 1, price := 101, quantity := 15,
    timestamp_ns := 3, client_id := 0, side := .buy }

/-- Concrete instantiation of C1: the two-level sweep of `bkC1` by
`oC1` obeys the trade discipline. -/
theorem C1_witness :
    sumQty (add_order bkC1 oC1).2 ≤ oC1.quantity ∧
    (∀ t ∈ (add_order bkC1 oC1).2,
      ∃ lvl ∈ (if oC1.side = Side.buy then bkC1.sell_levels else bkC1.buy_levels),
        t.price = lvl.price ∧ ∃ ro ∈ lvl.orders, ro.order_id = t.sell_order_id) ∧
    (oC1.side = Side.buy →
      (∀ t ∈ (add_order bkC1 oC1).2, t.price ≤ oC1.price) ∧
      ((add_order bkC1 oC1).2.map (fun t => t.price)).Pairwise (fun x y => x ≤ y)) ∧
    (oC1.side = Side.sell →
      (∀ t ∈ (add_order bkC1 oC1).2, oC1.price ≤ t.price) ∧
      ((add_order bkC1 oC1).2.map (fun t => t.price)).Pairwise (fun x y => y ≤ x)) :=
  C1_add_order_trade_discipline bkC1 oC1 (by decide) (by decide)

/-! ## C5: add-then-cancel restoration lemmas -/

/-- Adding then subtracting a quantity in `uint32_t` arithmetic restores
an in-range aggregate. -/
theorem u32add_sub_cancel (tv q : Nat) (h : tv < 2 ^ 32) :
    u32sub (u32add tv q) q = tv := by
  have h32 : (2 : Nat) ^ 32 = 4294967296 := by norm_num
  unfold u32add u32sub
  rw [h32] at h ⊢
  omega

/-- An id absent from every entry makes the index lookup fail. -/
theorem mapLookup_none_of_fresh (m : List Order) (oid : Nat)
    (hfresh : ∀ x ∈ m, x.order_id ≠ oid) : mapLookup m oid = none := by
  unfold mapLookup
  rw [List.find?_eq_none]
  intro x hx
  simpa using hfresh x hx

/-- `operator[]` insertion of a fresh id appends the new entry. -/
theorem mapInsert_fresh (m : List Order) (o : Order)
    (hfresh : ∀ x ∈ m, x.order_id ≠ o.order_id) : mapInsert m o = m ++ [o] := by
  unfold mapInsert
  have hany : m.any (fun x => x.order_id = o.order_id) = false := by
    rw [List.any_eq_false]
    intro x hx
    simpa using hfresh x hx
  simp [hany]

/-- Looking up a freshly appended entry finds it. -/
theorem mapLookup_append_self (m : List Order) (o : Order)
    (hfresh : ∀ x ∈ m, x.order_id ≠ o.order_id) :
    mapLookup (m ++ [o]) o.order_id = some o := by
  unfold mapLookup
  induction m with
  | nil => simp [List.find?]
  | cons x rest ih =>
    have hx : ¬x.order_id = o.order_id := hfresh x (List.mem_cons_self _ _)
    have hdec : (decide (x.order_id = o.order_id)) = false := decide_eq_false hx
    simp only [List.cons_append, List.find?_cons, hdec]
    exact ih fun y hy => hfresh y (List.mem_cons_of_mem _ hy)

/-- Erasing a freshly appended entry restores the index. -/
theorem mapErase_append_self (m : List Order) (o : Order)
    (hfresh : ∀ x ∈ m, x.order_id ≠ o.order_id) :
    mapErase (m ++ [o]) o.order_id = m := by
  unfold mapErase
  rw [List.filter_append]
  have h1 : List.filter (fun x => decide (x.order_id ≠ o.order_id)) [o] = [] := by
    simp [List.filter]
  have h2 : List.filter (fun x => decide (x.order_id ≠ o.order_id)) m = m :=
    List.filter_eq_self.mpr fun x hx => by simpa using hfresh x hx
  rw [h1, h2, List.append_nil]

/-- The `remove_order` scan of a queue not containing the id, extended
by one matching order at the tail, drops exactly that order. -/
theorem removeOrderGo_append_fresh (oid : Nat) (o : Order) (os : List Order)
    (hfresh : ∀ x ∈ os, x.order_id ≠ oid) (ho : o.order_id = oid) :
    ∀ tv, removeOrderGo oid (os ++ [o]) tv = (os, u32sub tv o.quantity) := by
  induction os with
  | nil =>
    intro tv
    simp [removeOrderGo, ho]
  | cons x rest ih =>
    intro tv
    have hx : ¬x.order_id = oid := hfresh x (List.mem_cons_self _ _)
    have hih := ih (fun y hy => hfresh y (List.mem_cons_of_mem _ hy)) tv
    simp only [List.cons_append, removeOrderGo, if_neg hx, List.append_eq, hih]

/-- Cancelling the order just inserted by `add_to_book`'s level update
restores the level lists exactly, for any `std::map` comparator. -/
theorem remove_insert_restore (cmp : Int → Int → Bool) (o : Order)
    (ls : List PriceLevelImpl)
    (hfresh : ∀ lvl ∈ ls, ∀ x ∈ lvl.orders, x.order_id ≠ o.order_id)
    (hne : ∀ lvl ∈ ls, lvl.orders ≠ [])
    (htv : ∀ lvl ∈ ls, lvl.total_volume < 2 ^ 32) :
    removeFromLevels o.order_id o.price (insertLevelBy cmp o ls) = ls := by
  induction ls with
  | nil =>
    simp [insertLevelBy, removeFromLevels, PriceLevelImpl.removeOrder, removeOrderGo]
  | cons l rest ih =>
    obtain ⟨lp, los, ltv⟩ := l
    have hfresh0 : ∀ x ∈ los, x.order_id ≠ o.order_id := fun x hx =>
      hfresh ⟨lp, los, ltv⟩ (List.mem_cons_self _ _) x hx
    have hne0 : los ≠ [] := hne ⟨lp, los, ltv⟩ (List.mem_cons_self _ _)
    have htv0 : ltv < 2 ^ 32 := htv ⟨lp, los, ltv⟩ (List.mem_cons_self _ _)
    have hihargs := ih (fun lvl hl => hfresh lvl (List.mem_cons_of_mem _ hl))
      (fun lvl hl => hne lvl (List.mem_cons_of_mem _ hl))
      (fun lvl hl => htv lvl (List.mem_cons_of_mem _ hl))
    by_cases hp : lp = o.price
    · have hgo := removeOrderGo_append_fresh o.order_id o los hfresh0 rfl
        (u32add ltv o.quantity)
      have hcan : u32sub (u32add ltv o.quantity) o.quantity = ltv :=
        u32add_sub_cancel _ _ htv0
      have hemp : los.isEmpty = false := by
        cases los with
        | nil => exact absurd rfl hne0
        | cons y ys => rfl
      simp [insertLevelBy, removeFromLevels, PriceLevelImpl.addOrder,
        PriceLevelImpl.removeOrder, hp, hgo, hcan, hemp]
    · by_cases hcmp : cmp o.price lp
      · simp [insertLevelBy, removeFromLevels, PriceLevelImpl.removeOrder,
          removeOrderGo, hp, hcmp, Ne.symm hp]
      · simp [insertLevelBy, removeFromLevels, hp, hcmp, hihargs]

/-- Engaging a non-empty level always emits at least one trade (the
first iteration trades `min` of the two quantities, possibly zero). -/
theorem matchOneLevel_trades_ne_nil (a : Order) (p : Int) (r : Order)
    (rest : List Order) (tv : Nat) (m : List Order) (tid : Nat)
    (h0 : ¬a.quantity = 0) :
    (matchOneLevel a p (r :: rest) tv m tid).trades ≠ [] := by
  by_cases hfull : r.quantity - min a.quantity r.quantity = 0
  · rw [matchOneLevel_cons_full a p r rest tv m tid h0 hfull]
    simp
  · rw [matchOneLevel_cons_partfill a p r rest tv m tid h0 hfull]
    simp

/-- A buy matching loop that emits no trades (on a book with no empty
levels, as the source maintains) touches nothing. -/
theorem match_buy_no_trades (lvls : List PriceLevelImpl) :
    ∀ (a : Order) (m : List Order) (tid : Nat),
      (∀ lvl ∈ lvls, lvl.orders ≠ []) →
      (match_buy_order a lvls m tid).trades = [] →
      match_buy_order a lvls m tid = ⟨[], a, lvls, m, tid⟩ := by
  induction lvls with
  | nil =>
    intro a m tid _ _
    rfl
  | cons lvl rest ih =>
    intro a m tid hne htr
    by_cases h0 : a.quantity = 0
    · exact match_buy_cons_done a lvl rest m tid h0
    · by_cases hbr : a.price < lvl.price
      · exact match_buy_cons_break a lvl rest m tid h0 hbr
      · exfalso
        obtain ⟨r, os, hro⟩ : ∃ r os, lvl.orders = r :: os := by
          cases hl : lvl.orders with
          | nil => exact absurd hl (hne lvl (List.mem_cons_self _ _))
          | cons r os => exact ⟨r, os, rfl⟩
        have hne2 : (matchOneLevel a lvl.price lvl.orders lvl.total_volume m tid).trades ≠ [] := by
          rw [hro]
          exact matchOneLevel_trades_ne_nil a lvl.price r os lvl.total_volume m tid h0
        cases hl : (matchOneLevel a lvl.price lvl.orders lvl.total_volume m tid).level with
        | some l' =>
          rw [match_buy_cons_some a lvl rest m tid l' h0 hbr hl] at htr
          exact hne2 htr
        | none =>
          rw [match_buy_cons_none a lvl rest m tid h0 hbr hl] at htr
          dsimp only at htr
          exact hne2 (List.append_eq_nil.mp htr).1

/-- A sell matching loop that emits no trades (on a book with no empty
levels) touches nothing. -/
theorem match_sell_no_trades (lvls : List PriceLevelImpl) :
    ∀ (a : Order) (m : List Order) (tid : Nat),
      (∀ lvl ∈ lvls, lvl.orders ≠ []) →
      (match_sell_order a lvls m tid).trades = [] →
      match_sell_order a lvls m tid = ⟨[], a, lvls, m, tid⟩ := by
  induction lvls with
  | nil =>
    intro a m tid _ _
    rfl
  | cons lvl rest ih =>
    intro a m tid hne htr
    by_cases h0 : a.quantity = 0
    · exact match_sell_cons_done a lvl rest m tid h0
    · by_cases hbr : a.price > lvl.price
      · exact match_sell_cons_break a lvl rest m tid h0 hbr
      · exfalso
        obtain ⟨r, os, hro⟩ : ∃ r os, lvl.orders = r :: os := by
          cases hl : lvl.orders with
          | nil => exact absurd hl (hne lvl (List.mem_cons_self _ _))
          | cons r os => exact ⟨r, os, rfl⟩
        have hne2 : (matchOneLevel a lvl.price lvl.orders lvl.total_volume m tid).trades ≠ [] := by
          rw [hro]
          exact matchOneLevel_trades_ne_nil a lvl.price r os lvl.total_volume m tid h0
        cases hl : (matchOneLevel a lvl.price lvl.orders lvl.total_volume m tid).level with
        | some l' =>
          rw [match_sell_cons_some a lvl rest m tid l' h0 hbr hl] at htr
          exact hne2 htr
        | none =>
          rw [match_sell_cons_none a lvl rest m tid h0 hbr hl] at htr
          dsimp only at htr
          exact hne2 (List.append_eq_nil.mp htr).1

/-- `add_to_book` of a buy order, unfolded. -/
theorem add_to_book_buy (b : OrderBookImpl) (o : Order) (hside : o.side = Side.buy) :
    add_to_book b o =
      { b with
        buy_levels := insertLevelBy (fun a c => a > c) o b.buy_levels
        order_map := mapInsert b.order_map o } := by
  unfold add_to_book
  obtain ⟨oi, sy, pr, qu, ts, ci, sd⟩ := o
  dsimp only at hside
  subst hside
  rfl

/-- `add_to_book` of a sell order, unfolded. -/
theorem add_to_book_sell (b : OrderBookImpl) (o : Order) (hside : o.side = Side.sell) :
    add_to_book b o =
      { b with
        sell_levels := insertLevelBy (fun a c => a < c) o b.sell_levels
        order_map := mapInsert b.order_map o } := by
  unfold add_to_book
  obtain ⟨oi, sy, pr, qu, ts, ci, sd⟩ := o
  dsimp only at hside
  subst hside
  rfl

/-- `cancel_order` unfolded on a found buy order. -/
theorem cancel_order_found_buy (b : OrderBookImpl) (oid : Nat) (o : Order)
    (h : mapLookup b.order_map oid = some o) (hside : o.side = Side.buy) :
    (cancel_order b oid).1 =
      { b with
        order_map := mapErase b.order_map oid
        buy_levels := removeFromLevels oid o.price b.buy_levels } := by
  unfold cancel_order
  rw [h]
  obtain ⟨oi, sy, pr, qu, ts, ci, sd⟩ := o
  dsimp only at hside
  subst hside
  rfl

/-- `cancel_order` unfolded on a found sell order. -/
theorem cancel_order_found_sell (b : OrderBookImpl) (oid : Nat) (o : Order)
    (h : mapLookup b.order_map oid = some o) (hside : o.side = Side.sell) :
    (cancel_order b oid).1 =
      { b with
        order_map := mapErase b.order_map oid
        sell_levels := removeFromLevels oid o.price b.sell_levels } := by
  unfold cancel_order
  rw [h]
  obtain ⟨oi, sy, pr, qu, ts, ci, sd⟩ := o
  dsimp only at hside
  subst hside
  rfl

/-- A valid fresh buy order that produced no trades is simply placed in
the book. -/
theorem add_order_fresh_state_buy (b : OrderBookImpl) (o : Order)
    (hv : ¬(o.quantity = 0 ∨ o.price ≤ 0))
    (hfreshM : ∀ x ∈ b.order_map, x.order_id ≠ o.order_id)
    (hneS : ∀ lvl ∈ b.sell_levels, lvl.orders ≠ [])
    (hside : o.side = Side.buy)
    (hnt : (add_order b o).2 = []) :
    (add_order b o).1 = add_to_book b o := by
  have hd : ¬(mapLookup b.order_map o.order_id).isSome = true := by
    rw [mapLookup_none_of_fresh b.order_map o.order_id hfreshM]
    simp
  have ht := add_order_trades_buy b o hv hd hside
  rw [ht] at hnt
  have hnoop := match_buy_no_trades b.sell_levels o b.order_map b.next_trade_id hneS hnt
  have hq : o.quantity > 0 := Nat.pos_of_ne_zero fun h => hv (Or.inl h)
  unfold add_order
  rw [if_neg hv, if_neg hd, hside]
  dsimp only
  rw [hnoop]
  dsimp only
  rw [if_pos hq]

/-- A valid fresh sell order that produced no trades is simply placed in
the book. -/
theorem add_order_fresh_state_sell (b : OrderBookImpl) (o : Order)
    (hv : ¬(o.quantity = 0 ∨ o.price ≤ 0))
    (hfreshM : ∀ x ∈ b.order_map, x.order_id ≠ o.order_id)
    (hneB : ∀ lvl ∈ b.buy_levels, lvl.orders ≠ [])
    (hside : o.side = Side.sell)
    (hnt : (add_order b o).2 = []) :
    (add_order b o).1 = add_to_book b o := by
  have hd : ¬(mapLookup b.order_map o.order_id).isSome = true := by
    rw [mapLookup_none_of_fresh b.order_map o.order_id hfreshM]
    simp
  have ht := add_order_trades_sell b o hv hd hside
  rw [ht] at hnt
  have hnoop := match_sell_no_trades b.buy_levels o b.order_map b.next_trade_id hneB hnt
  have hq : o.quantity > 0 := Nat.pos_of_ne_zero fun h => hv (Or.inl h)
  unfold add_order
  rw [if_neg hv, if_neg hd, hside]
  dsimp only
  rw [hnoop]
  dsimp only
  rw [if_pos hq]

/-- C5, restricted to the non-crossing case the code satisfies: for a
well-formed book (no empty level, `uint32_t`-ranged aggregates) and a
fresh order whose `add_order` returns no trades, `add_order` followed by
`cancel_order` restores the book exactly. -/
theorem C5_add_then_cancel_restores (b : OrderBookImpl) (o : Order)
    (hfreshM : ∀ x ∈ b.order_map, x.order_id ≠ o.order_id)
    (hfreshB : ∀ lvl ∈ b.buy_levels, ∀ x ∈ lvl.orders, x.order_id ≠ o.order_id)
    (hfreshS : ∀ lvl ∈ b.sell_levels, ∀ x ∈ lvl.orders, x.order_id ≠ o.order_id)
    (hneB : ∀ lvl ∈ b.buy_levels, lvl.orders ≠ [])
    (hneS : ∀ lvl ∈ b.sell_levels, lvl.orders ≠ [])
    (htvB : ∀ lvl ∈ b.buy_levels, lvl.total_volume < 2 ^ 32)
    (htvS : ∀ lvl ∈ b.sell_levels, lvl.total_volume < 2 ^ 32)
    (hnt : (add_order b o).2 = []) :
    (cancel_order (add_order b o).1 o.order_id).1 = b := by
  have hmapins : mapInsert b.order_map o = b.order_map ++ [o] :=
    mapInsert_fresh b.order_map o hfreshM
  by_cases hv : o.quantity = 0 ∨ o.price ≤ 0
  · have hres : add_order b o = (b, []) := by
      apply add_order_invalid
      rcases hv with h | h
      · exact Or.inl h
      · exact Or.inr (Or.inl h)
    rw [hres]
    rw [show ((b, ([] : List Trade))).1 = b from rfl]
    rw [cancel_order_absent b o.order_id (mapLookup_none_of_fresh _ _ hfreshM)]
  · cases hside : o.side with
    | buy =>
      rw [add_order_fresh_state_buy b o hv hfreshM hneS hside hnt,
        add_to_book_buy b o hside]
      have hlook : mapLookup (mapInsert b.order_map o) o.order_id = some o := by
        rw [hmapins]
        exact mapLookup_append_self b.order_map o hfreshM
      rw [cancel_order_found_buy _ o.order_id o hlook hside]
      dsimp only
      rw [hmapins, mapErase_append_self b.order_map o hfreshM,
        remove_insert_restore (fun a c => a > c) o b.buy_levels hfreshB hneB htvB]
    | sell =>
      rw [add_order_fresh_state_sell b o hv hfreshM hneB hside hnt,
        add_to_book_sell b o hside]
      have hlook : mapLookup (mapInsert b.order_map o) o.order_id = some o := by
        rw [hmapins]
        exact mapLookup_append_self b.order_map o hfreshM
      rw [cancel_order_found_sell _ o.order_id o hlook hside]
      dsimp only
      rw [hmapins, mapErase_append_self b.order_map o hfreshM,
        remove_insert_restore (fun a c => a < c) o b.sell_levels hfreshS hneS htvS]

/-- The one-ask book of the C5 counterexample. -/
def oS3 : Order :=
  { order_id := 1, symbol_id := 1, price := 100, quantity := 10,
    timestamp_ns := 1, client_id := 0, side := .sell }

/-- Book holding only `oS3`. -/
def bkC5 : OrderBookImpl :=
  { symbol_id := 1, buy_levels := [], sell_levels := [⟨100, [oS3], 10⟩],
    order_map := [oS3], next_trade_id := 1 }

/-- A crossing buy order whose id is absent from `bkC5`. -/
def oB2 : Order :=
  { order_id := 2, symbol_id := 1, price := 100, quantity := 10,
    timestamp_ns := 2, client_id := 0, side := .buy }

/-- C5 counterexample: for the book `bkC5` and the crossing order `oB2`
(whose id is not in the book), `add_order` then `cancel_order` does not
restore the pre-state — the resting ask is consumed by the match, so the
index differs even as a set and the trade-id counter moved. The claim as
stated, without excluding matching, is false. -/
theorem C5_counterexample :
    mapLookup bkC5.order_map oB2.order_id = none ∧
    (∀ lvl ∈ bkC5.buy_levels ++ bkC5.sell_levels, ∀ x ∈ lvl.orders,
      x.order_id ≠ oB2.order_id) ∧
    (cancel_order (add_order bkC5 oB2).1 oB2.order_id).1 ≠ bkC5 ∧
    mapLookup (cancel_order (add_order bkC5 oB2).1 oB2.order_id).1.order_map 1 = none ∧
    mapLookup bkC5.order_map 1 = some oS3 ∧
    (cancel_order (add_order bkC5 oB2).1 oB2.order_id).1.next_trade_id = 2 := by
  refine ⟨by decide, by decide, by decide, by decide, by decide, by decide⟩

/-- A non-crossing buy order fresh for `bkC5`. -/
def oB3 : Order :=
  { order_id := 3, symbol_id := 1, price := 90, quantity := 5,
    timestamp_ns := 3, client_id := 0, side := .buy }

/-- Concrete instantiation of the amended C5: adding the non-crossing
`oB3` to `bkC5` and cancelling it restores the book exactly. -/
theorem C5_witness :
    (cancel_order (add_order bkC5 oB3).1 oB3.order_id).1 = bkC5 :=
  C5_add_then_cancel_restores bkC5 oB3 (by decide) (by decide) (by decide)
    (by decide) (by decide) (by decide) (by decide) (by decide)

/-! ## C2: the bid/ask separation invariant -/

/-- The buy matching loop only consumes ask levels from the cheap end:
the surviving level prices are a tail of the original ones. -/
theorem match_buy_prices_drop (lvls : List PriceLevelImpl) :
    ∀ (a : Order) (m : List Order) (tid : Nat),
      ∃ n, pricesOf (match_buy_order a lvls m tid).levels = (pricesOf lvls).drop n := by
  induction lvls with
  | nil =>
    intro a m tid
    exact ⟨0, rfl⟩
  | cons lvl rest ih =>
    intro a m tid
    by_cases h0 : a.quantity = 0
    · rw [match_buy_cons_done a lvl rest m tid h0]
      exact ⟨0, rfl⟩
    · by_cases hbr : a.price < lvl.price
      · rw [match_buy_cons_break a lvl rest m tid h0 hbr]
        exact ⟨0, rfl⟩
      · cases hl : (matchOneLevel a lvl.price lvl.orders lvl.total_volume m tid).level with
        | some l' =>
          rw [match_buy_cons_some a lvl rest m tid l' h0 hbr hl]
          refine ⟨0, ?_⟩
          have hp := (matchOneLevel_level_some lvl.price lvl.orders a lvl.total_volume m tid l' hl).1
          simp [pricesOf, hp]
        | none =>
          rw [match_buy_cons_none a lvl rest m tid h0 hbr hl]
          obtain ⟨n, hn⟩ := ih (matchOneLevel a lvl.price lvl.orders lvl.total_volume m tid).aggressor
            (matchOneLevel a lvl.price lvl.orders lvl.total_volume m tid).omap
            (matchOneLevel a lvl.price lvl.orders lvl.total_volume m tid).tid
          exact ⟨n + 1, hn⟩

/-- The sell matching loop only consumes bid levels from the expensive
end: the surviving level prices are a tail of the original ones. -/
theorem match_sell_prices_drop (lvls : List PriceLevelImpl) :
    ∀ (a : Order) (m : List Order) (tid : Nat),
      ∃ n, pricesOf (match_sell_order a lvls m tid).levels = (pricesOf lvls).drop n := by
  induction lvls with
  | nil =>
    intro a m tid
    exact ⟨0, rfl⟩
  | cons lvl rest ih =>
    intro a m tid
    by_cases h0 : a.quantity = 0
    · rw [match_sell_cons_done a lvl rest m tid h0]
      exact ⟨0, rfl⟩
    · by_cases hbr : a.price > lvl.price
      · rw [match_sell_cons_break a lvl rest m tid h0 hbr]
        exact ⟨0, rfl⟩
      · cases hl : (matchOneLevel a lvl.price lvl.orders lvl.total_volume m tid).level with
        | some l' =>
          rw [match_sell_cons_some a lvl rest m tid l' h0 hbr hl]
          refine ⟨0, ?_⟩
          have hp := (matchOneLevel_level_some lvl.price lvl.orders a lvl.total_volume m tid l' hl).1
          simp [pricesOf, hp]
        | none =>
          rw [match_sell_cons_none a lvl rest m tid h0 hbr hl]
          obtain ⟨n, hn⟩ := ih (matchOneLevel a lvl.price lvl.orders lvl.total_volume m tid).aggressor
            (matchOneLevel a lvl.price lvl.orders lvl.total_volume m tid).omap
            (matchOneLevel a lvl.price lvl.orders lvl.total_volume m tid).tid
          exact ⟨n + 1, hn⟩

/-- If a buy aggressor still has quantity after matching and ask levels
remain, its price is strictly below the remaining best ask (the loop
exit condition). -/
theorem match_buy_exit (lvls : List PriceLevelImpl) :
    ∀ (a : Order) (m : List Order) (tid : Nat),
      (match_buy_order a lvls m tid).aggressor.quantity ≠ 0 →
      ∀ hd tl, (match_buy_order a lvls m tid).levels = hd :: tl →
      a.price < hd.price := by
  induction lvls with
  | nil =>
    intro a m tid _ hd tl hlev
    cases hlev
  | cons lvl rest ih =>
    intro a m tid hq hd tl hlev
    by_cases h0 : a.quantity = 0
    · rw [match_buy_cons_done a lvl rest m tid h0] at hq
      exact absurd h0 hq
    · by_cases hbr : a.price < lvl.price
      · rw [match_buy_cons_break a lvl rest m tid h0 hbr] at hlev
        cases hlev
        exact hbr
      · cases hl : (matchOneLevel a lvl.price lvl.orders lvl.total_volume m tid).level with
        | some l' =>
          rw [match_buy_cons_some a lvl rest m tid l' h0 hbr hl] at hq
          exact absurd
            (matchOneLevel_level_some lvl.price lvl.orders a lvl.total_volume m tid l' hl).2 hq
        | none =>
          rw [match_buy_cons_none a lvl rest m tid h0 hbr hl] at hq hlev
          obtain ⟨q1, hq1⟩ := matchOneLevel_aggr lvl.price lvl.orders a lvl.total_volume m tid
          have := ih (matchOneLevel a lvl.price lvl.orders lvl.total_volume m tid).aggressor
            (matchOneLevel a lvl.price lvl.orders lvl.total_volume m tid).omap
            (matchOneLevel a lvl.price lvl.orders lvl.total_volume m tid).tid hq hd tl hlev
          rw [hq1] at this
          exact this

/-- If a sell aggressor still has quantity after matching and bid levels
remain, its price is strictly above the remaining best bid. -/
theorem match_sell_exit (lvls : List PriceLevelImpl) :
    ∀ (a : Order) (m : List Order) (tid : Nat),
      (match_sell_order a lvls m tid).aggressor.quantity ≠ 0 →
      ∀ hd tl, (match_sell_order a lvls m tid).levels = hd :: tl →
      hd.price < a.price := by
  induction lvls with
  | nil =>
    intro a m tid _ hd tl hlev
    cases hlev
  | cons lvl rest ih =>
    intro a m tid hq hd tl hlev
    by_cases h0 : a.quantity = 0
    · rw [match_sell_cons_done a lvl rest m tid h0] at hq
      exact absurd h0 hq
    · by_cases hbr : a.price > lvl.price
      · rw [match_sell_cons_break a lvl rest m tid h0 hbr] at hlev
        cases hlev
        exact hbr
      · cases hl : (matchOneLevel a lvl.price lvl.orders lvl.total_volume m tid).level with
        | some l' =>
          rw [match_sell_cons_some a lvl rest m tid l' h0 hbr hl] at hq
          exact absurd
            (matchOneLevel_level_some lvl.price lvl.orders a lvl.total_volume m tid l' hl).2 hq
        | none =>
          rw [match_sell_cons_none a lvl rest m tid h0 hbr hl] at hq hlev
          obtain ⟨q1, hq1⟩ := matchOneLevel_aggr lvl.price lvl.orders a lvl.total_volume m tid
          have := ih (matchOneLevel a lvl.price lvl.orders lvl.total_volume m tid).aggressor
            (matchOneLevel a lvl.price lvl.orders lvl.total_volume m tid).omap
            (matchOneLevel a lvl.price lvl.orders lvl.total_volume m tid).tid hq hd tl hlev
          rw [hq1] at this
          exact this

/-- A price in the inserted level list is the new order's or one of the
old ones. -/
theorem insertLevelBy_prices_mem (cmp : Int → Int → Bool) (o : Order)
    (ls : List PriceLevelImpl) :
    ∀ q ∈ pricesOf (insertLevelBy cmp o ls), q = o.price ∨ q ∈ pricesOf ls := by
  induction ls with
  | nil =>
    intro q hq
    simp [insertLevelBy, pricesOf] at hq
    exact Or.inl hq
  | cons l rest ih =>
    intro q hq
    by_cases hp : l.price = o.price
    · simp only [insertLevelBy, if_pos hp, pricesOf, List.map_cons, List.mem_cons] at hq ⊢
      rcases hq with h | h
      · exact Or.inr (Or.inl h)
      · exact Or.inr (Or.inr h)
    · by_cases hcmp : cmp o.price l.price
      · simp only [insertLevelBy, if_neg hp, if_pos hcmp, pricesOf, List.map_cons,
          List.mem_cons] at hq ⊢
        rcases hq with h | h | h
        · exact Or.inl h
        · exact Or.inr (Or.inl h)
        · exact Or.inr (Or.inr h)
      · simp only [insertLevelBy, if_neg hp, if_neg hcmp, pricesOf, List.map_cons,
          List.mem_cons] at hq ⊢
        rcases hq with h | h
        · exact Or.inr (Or.inl h)
        · rcases ih q h with h' | h'
          · exact Or.inl h'
          · exact Or.inr (Or.inr h')

/-- Inserting a buy order keeps the bid level prices strictly
decreasing. -/
theorem insertLevelBy_sorted_desc (o : Order) (ls : List PriceLevelImpl)
    (hsort : (pricesOf ls).Pairwise (fun x y => y < x)) :
    (pricesOf (insertLevelBy (fun a c => a > c) o ls)).Pairwise (fun x y => y < x) := by
  induction ls with
  | nil =>
    simp [insertLevelBy, pricesOf]
  | cons l rest ih =>
    rw [pricesOf, List.map_cons, List.pairwise_cons] at hsort
    by_cases hp : l.price = o.price
    · simpa [insertLevelBy, if_pos hp, pricesOf, PriceLevelImpl.addOrder,
        List.pairwise_cons] using hsort
    · by_cases hcmp : (o.price > l.price : Bool)
      · have hgt : l.price < o.price := by simpa using hcmp
        simp only [insertLevelBy, if_neg hp, if_pos hcmp, pricesOf, List.map_cons,
          List.pairwise_cons]
        refine ⟨?_, hsort.1, hsort.2⟩
        intro y hy
        rcases List.mem_cons.mp hy with h | h
        · subst h
          exact hgt
        · exact lt_trans (hsort.1 y h) hgt
      · have hlt : o.price < l.price := by
          have h1 : ¬o.price > l.price := by simpa using hcmp
          omega
        simp only [insertLevelBy, if_neg hp, if_neg hcmp, pricesOf, List.map_cons,
          List.pairwise_cons]
        refine ⟨?_, ih hsort.2⟩
        intro y hy
        rcases insertLevelBy_prices_mem _ o rest y hy with h | h
        · subst h
          exact hlt
        · exact hsort.1 y h

/-- Inserting a sell order keeps the ask level prices strictly
increasing. -/
theorem insertLevelBy_sorted_asc (o : Order) (ls : List PriceLevelImpl)
    (hsort : (pricesOf ls).Pairwise (fun x y => x < y)) :
    (pricesOf (insertLevelBy (fun a c => a < c) o ls)).Pairwise (fun x y => x < y) := by
  induction ls with
  | nil =>
    simp [insertLevelBy, pricesOf]
  | cons l rest ih =>
    rw [pricesOf, List.map_cons, List.pairwise_cons] at hsort
    by_cases hp : l.price = o.price
    · simpa [insertLevelBy, if_pos hp, pricesOf, PriceLevelImpl.addOrder,
        List.pairwise_cons] using hsort
    · by_cases hcmp : (o.price < l.price : Bool)
      · have hgt : o.price < l.price := by simpa using hcmp
        simp only [insertLevelBy, if_neg hp, if_pos hcmp, pricesOf, List.map_cons,
          List.pairwise_cons]
        refine ⟨?_, hsort.1, hsort.2⟩
        intro y hy
        rcases List.mem_cons.mp hy with h | h
        · subst h
          exact hgt
        · exact lt_trans hgt (hsort.1 y h)
      · have hlt : l.price < o.price := by
          have h1 : ¬o.price < l.price := by simpa using hcmp
          omega
        simp only [insertLevelBy, if_neg hp, if_neg hcmp, pricesOf, List.map_cons,
          List.pairwise_cons]
        refine ⟨?_, ih hsort.2⟩
        intro y hy
        rcases insertLevelBy_prices_mem _ o rest y hy with h | h
        · subst h
          exact hlt
        · exact hsort.1 y h

/-- `cancel_order`'s level scrub keeps a sublist of the level prices. -/
theorem removeFromLevels_prices_sublist (oid : Nat) (p : Int)
    (ls : List PriceLevelImpl) :
    List.Sublist (pricesOf (removeFromLevels oid p ls)) (pricesOf ls) := by
  induction ls with
  | nil =>
    exact List.Sublist.refl _
  | cons l rest ih =>
    by_cases hp : l.price = p
    · simp only [removeFromLevels, if_pos hp]
      split
      · exact List.sublist_cons_of_sublist _ (List.Sublist.refl _)
      · have : (l.removeOrder oid).price = l.price := rfl
        simp only [pricesOf, List.map_cons, this]
        exact List.Sublist.cons₂ _ (List.Sublist.refl _)
    · simp only [removeFromLevels, if_neg hp, pricesOf, List.map_cons]
      exact List.Sublist.cons₂ _ ih

/-- The state returned by a valid, non-duplicate buy `add_order`. -/
theorem add_order_state_buy (b : OrderBookImpl) (o : Order)
    (hv : ¬(o.quantity = 0 ∨ o.price ≤ 0))
    (hd : ¬(mapLookup b.order_map o.order_id).isSome = true)
    (hside : o.side = Side.buy) :
    (add_order b o).1 =
      (if (match_buy_order o b.sell_levels b.order_map b.next_trade_id).aggressor.quantity > 0 then
        add_to_book
          { b with
            sell_levels := (match_buy_order o b.sell_levels b.order_map b.next_trade_id).levels
            order_map := (match_buy_order o b.sell_levels b.order_map b.next_trade_id).omap
            next_trade_id := (match_buy_order o b.sell_levels b.order_map b.next_trade_id).tid }
          (match_buy_order o b.sell_levels b.order_map b.next_trade_id).aggressor
      else
        { b with
          sell_levels := (match_buy_order o b.sell_levels b.order_map b.next_trade_id).levels
          order_map := (match_buy_order o b.sell_levels b.order_map b.next_trade_id).omap
          next_trade_id := (match_buy_order o b.sell_levels b.order_map b.next_trade_id).tid }) := by
  unfold add_order
  rw [if_neg hv, if_neg hd, hside]
  dsimp only
  split <;> rfl

/-- The state returned by a valid, non-duplicate sell `add_order`. -/
theorem add_order_state_sell (b : OrderBookImpl) (o : Order)
    (hv : ¬(o.quantity = 0 ∨ o.price ≤ 0))
    (hd : ¬(mapLookup b.order_map o.order_id).isSome = true)
    (hside : o.side = Side.sell) :
    (add_order b o).1 =
      (if (match_sell_order o b.buy_levels b.order_map b.next_trade_id).aggressor.quantity > 0 then
        add_to_book
          { b with
            buy_levels := (match_sell_order o b.buy_levels b.order_map b.next_trade_id).levels
            order_map := (match_sell_order o b.buy_levels b.order_map b.next_trade_id).omap
            next_trade_id := (match_sell_order o b.buy_levels b.order_map b.next_trade_id).tid }
          (match_sell_order o b.buy_levels b.order_map b.next_trade_id).aggressor
      else
        { b with
          buy_levels := (match_sell_order o b.buy_levels b.order_map b.next_trade_id).levels
          order_map := (match_sell_order o b.buy_levels b.order_map b.next_trade_id).omap
          next_trade_id := (match_sell_order o b.buy_levels b.order_map b.next_trade_id).tid }) := by
  unfold add_order
  rw [if_neg hv, if_neg hd, hside]
  dsimp only
  split <;> rfl

/-- The book invariant the `std::map` representation maintains: bid
level prices strictly decreasing, ask level prices strictly increasing,
and every bid price strictly below every ask price. -/
def WF (b : OrderBookImpl) : Prop :=
  (pricesOf b.buy_levels).Pairwise (fun x y => y < x) ∧
  (pricesOf b.sell_levels).Pairwise (fun x y => x < y) ∧
  ∀ p ∈ pricesOf b.buy_levels, ∀ q ∈ pricesOf b.sell_levels, p < q

/-- The empty book is well-formed. -/
theorem WF_emptyBook (sym : Nat) : WF (emptyBook sym) := by
  refine ⟨List.Pairwise.nil, List.Pairwise.nil, ?_⟩
  intro p hp
  simp [emptyBook, pricesOf] at hp

/-- `add_order` preserves the bid/ask separation invariant. -/
theorem WF_add_order (b : OrderBookImpl) (o : Order) (hwf : WF b) :
    WF (add_order b o).1 := by
  obtain ⟨hsB, hsS, hx⟩ := hwf
  by_cases hv : o.quantity = 0 ∨ o.price ≤ 0
  · have hres : add_order b o = (b, []) := by
      apply add_order_invalid
      rcases hv with h | h
      · exact Or.inl h
      · exact Or.inr (Or.inl h)
    rw [hres]
    exact ⟨hsB, hsS, hx⟩
  · by_cases hd : (mapLookup b.order_map o.order_id).isSome = true
    · rw [add_order_invalid b o (Or.inr (Or.inr hd))]
      exact ⟨hsB, hsS, hx⟩
    · cases hside : o.side with
      | buy =>
        rw [add_order_state_buy b o hv hd hside]
        obtain ⟨n, hdrop⟩ := match_buy_prices_drop b.sell_levels o b.order_map b.next_trade_id
        obtain ⟨qa, hqa⟩ := match_buy_aggr b.sell_levels o b.order_map b.next_trade_id
        have hsS' : (pricesOf (match_buy_order o b.sell_levels b.order_map
            b.next_trade_id).levels).Pairwise (fun x y => x < y) := by
          rw [hdrop]
          exact List.Pairwise.sublist (List.drop_sublist n _) hsS
        have hmemS : ∀ q ∈ pricesOf (match_buy_order o b.sell_levels b.order_map
            b.next_trade_id).levels, q ∈ pricesOf b.sell_levels := by
          rw [hdrop]
          intro q hq
          exact (List.drop_sublist n _).subset hq
        split
        · next hqpos =>
          have hside' : (match_buy_order o b.sell_levels b.order_map
              b.next_trade_id).aggressor.side = Side.buy := by
            rw [hqa]
            exact hside
          rw [add_to_book_buy _ _ hside']
          refine ⟨?_, hsS', ?_⟩
          · exact insertLevelBy_sorted_desc _ b.buy_levels hsB
          · intro p hp q hq
            rcases insertLevelBy_prices_mem _ _ b.buy_levels p hp with h | h
            · subst h
              cases hlev : (match_buy_order o b.sell_levels b.order_map
                  b.next_trade_id).levels with
              | nil =>
                rw [hlev] at hq
                simp [pricesOf] at hq
              | cons hd0 tl0 =>
                have hq0 : (match_buy_order o b.sell_levels b.order_map
                    b.next_trade_id).aggressor.quantity ≠ 0 := by omega
                have hexit := match_buy_exit b.sell_levels o b.order_map
                  b.next_trade_id hq0 hd0 tl0 hlev
                have haggp : (match_buy_order o b.sell_levels b.order_map
                    b.next_trade_id).aggressor.price = o.price := by
                  rw [hqa]
                rw [haggp]
                rw [hlev] at hq hsS'
                rw [pricesOf, List.map_cons] at hq hsS'
                rw [List.pairwise_cons] at hsS'
                rcases List.mem_cons.mp hq with h' | h'
                · rw [h']
                  exact hexit
                · exact lt_trans hexit (hsS'.1 q h')
            · exact hx p h q (hmemS q hq)
        · exact ⟨hsB, hsS', fun p hp q hq => hx p hp q (hmemS q hq)⟩
      | sell =>
        rw [add_order_state_sell b o hv hd hside]
        obtain ⟨n, hdrop⟩ := match_sell_prices_drop b.buy_levels o b.order_map b.next_trade_id
        obtain ⟨qa, hqa⟩ := match_sell_aggr b.buy_levels o b.order_map b.next_trade_id
        have hsB' : (pricesOf (match_sell_order o b.buy_levels b.order_map
            b.next_trade_id).levels).Pairwise (fun x y => y < x) := by
          rw [hdrop]
          exact List.Pairwise.sublist (List.drop_sublist n _) hsB
        have hmemB : ∀ p ∈ pricesOf (match_sell_order o b.buy_levels b.order_map
            b.next_trade_id).levels, p ∈ pricesOf b.buy_levels := by
          rw [hdrop]
          intro p hp
          exact (List.drop_sublist n _).subset hp
        split
        · next hqpos =>
          have hside' : (match_sell_order o b.buy_levels b.order_map
              b.next_trade_id).aggressor.side = Side.sell := by
            rw [hqa]
            exact hside
          rw [add_to_book_sell _ _ hside']
          refine ⟨hsB', ?_, ?_⟩
          · exact insertLevelBy_sorted_asc _ b.sell_levels hsS
          · intro p hp q hq
            rcases insertLevelBy_prices_mem _ _ b.sell_levels q hq with h | h
            · subst h
              cases hlev : (match_sell_order o b.buy_levels b.order_map
                  b.next_trade_id).levels with
              | nil =>
                rw [hlev] at hp
                simp [pricesOf] at hp
              | cons hd0 tl0 =>
                have hq0 : (match_sell_order o b.buy_levels b.order_map
                    b.next_trade_id).aggressor.quantity ≠ 0 := by omega
                have hexit := match_sell_exit b.buy_levels o b.order_map
                  b.next_trade_id hq0 hd0 tl0 hlev
                have haggp : (match_sell_order o b.buy_levels b.order_map
                    b.next_trade_id).aggressor.price = o.price := by
                  rw [hqa]
                rw [haggp]
                rw [hlev] at hp hsB'
                rw [pricesOf, List.map_cons] at hp hsB'
                rw [List.pairwise_cons] at hsB'
                rcases List.mem_cons.mp hp with h' | h'
                · rw [h']
                  exact hexit
                · exact lt_trans (hsB'.1 p h') hexit
            · exact hx p (hmemB p hp) q h
        · exact ⟨hsB', hsS, fun p hp q hq => hx p (hmemB p hp) q hq⟩

/-- `cancel_order` preserves the bid/ask separation invariant. -/
theorem WF_cancel_order (b : OrderBookImpl) (oid : Nat) (hwf : WF b) :
    WF (cancel_order b oid).1 := by
  obtain ⟨hsB, hsS, hx⟩ := hwf
  cases hlook : mapLookup b.order_map oid with
  | none =>
    rw [cancel_order_absent b oid hlook]
    exact ⟨hsB, hsS, hx⟩
  | some o =>
    cases hside : o.side with
    | buy =>
      rw [cancel_order_found_buy b oid o hlook hside]
      refine ⟨List.Pairwise.sublist (removeFromLevels_prices_sublist oid o.price b.buy_levels) hsB,
        hsS, ?_⟩
      intro p hp q hq
      exact hx p ((removeFromLevels_prices_sublist oid o.price b.buy_levels).subset hp) q hq
    | sell =>
      rw [cancel_order_found_sell b oid o hlook hside]
      refine ⟨hsB,
        List.Pairwise.sublist (removeFromLevels_prices_sublist oid o.price b.sell_levels) hsS, ?_⟩
      intro p hp q hq
      exact hx p hp q ((removeFromLevels_prices_sublist oid o.price b.sell_levels).subset hq)

/-- `modify_order` preserves the bid/ask separation invariant. -/
theorem WF_modify_order (b : OrderBookImpl) (oid : Nat) (np : Int)
    (nq now : Nat) (hwf : WF b) : WF (modify_order b oid np nq now).1 := by
  cases hlook : mapLookup b.order_map oid with
  | none =>
    rw [modify_order_absent b oid np nq now hlook]
    exact hwf
  | some o =>
    rw [modify_order_present b oid np nq now o hlook]
    exact WF_add_order (cancel_order b oid).1
      { o with price := np, quantity := nq, timestamp_ns := now }
      (WF_cancel_order b oid hwf)

/-- The three public mutators of `IOrderBook`. -/
inductive BookOp where
  | addO (o : Order)
  | cancelO (oid : Nat)
  | modifyO (oid : Nat) (newPrice : Int) (newQuantity : Nat) (now : Nat)
deriving DecidableEq, Repr

/-- Apply one mutator, keeping the resulting state. -/
def applyOp (b : OrderBookImpl) : BookOp → OrderBookImpl
  | .addO o => (add_order b o).1
  | .cancelO oid => (cancel_order b oid).1
  | .modifyO oid np nq now => (modify_order b oid np nq now).1

/-- Run a sequence of mutators from the freshly created book. -/
def runOps (sym : Nat) (ops : List BookOp) : OrderBookImpl :=
  ops.foldl applyOp (emptyBook sym)

/-- C2: on every book state reachable from the empty book by `add_order`,
`cancel_order` and `modify_order` operations, whenever `best_bid()` and
`best_ask()` are both defined, `best_bid() < best_ask()`. -/
theorem C2_best_bid_lt_best_ask (sym : Nat) (ops : List BookOp) (pb pa : Int)
    (hb : best_bid (runOps sym ops) = some pb)
    (ha : best_ask (runOps sym ops) = some pa) :
    pb < pa := by
  have hgen : ∀ (l : List BookOp) (b : OrderBookImpl), WF b → WF (l.foldl applyOp b) := by
    intro l
    induction l with
    | nil =>
      intro b h
      exact h
    | cons op rest ihl =>
      intro b h
      apply ihl
      cases op with
      | addO o => exact WF_add_order b o h
      | cancelO oid => exact WF_cancel_order b oid h
      | modifyO oid np nq now => exact WF_modify_order b oid np nq now h
  have hwf : WF (runOps sym ops) := hgen ops (emptyBook sym) (WF_emptyBook sym)
  obtain ⟨hsB, hsS, hx⟩ := hwf
  unfold best_bid at hb
  unfold best_ask at ha
  cases hB : (runOps sym ops).buy_levels with
  | nil =>
    rw [hB] at hb
    cases hb
  | cons lb tb =>
    cases hS : (runOps sym ops).sell_levels with
    | nil =>
      rw [hS] at ha
      cases ha
    | cons ls ts =>
      rw [hB] at hb
      rw [hS] at ha
      simp only [List.head?_cons, Option.map_some'] at hb ha
      have hpb : lb.price = pb := Option.some.inj hb
      have hpa : ls.price = pa := Option.some.inj ha
      have hmb : pb ∈ pricesOf (runOps sym ops).buy_levels := by
        rw [hB, ← hpb]
        exact List.mem_map_of_mem _ (List.mem_cons_self _ _)
      have hma : pa ∈ pricesOf (runOps sym ops).sell_levels := by
        rw [hS, ← hpa]
        exact List.mem_map_of_mem _ (List.mem_cons_self _ _)
      exact hx pb hmb pa hma

/-- The two-sided non-crossing history of the C2 witness. -/
def opsC2 : List BookOp :=
  [.addO { order_id := 21, symbol_id := 1, price := 99, quantity := 5,
           timestamp_ns := 1, client_id := 0, side := .buy },
   .addO { order_id := 22, symbol_id := 1, price := 101, quantity := 5,
           timestamp_ns := 2, client_id := 0, side := .sell }]

/-- Concrete instantiation of C2: after resting a bid at 99 and an ask
at 101, the defined best bid is below the defined best ask. -/
theorem C2_witness : (99 : Int) < 101 :=
  C2_best_bid_lt_best_ask 1 opsC2 99 101 (by decide) (by decide)

end Micromatch
